import Mathlib

/-!
Shallow embedding of ashred (src/ashred.c), a secure-erase tool built on an
overlapped (POSIX aio) read/write pipeline.

The embedding mirrors the source:

* `Slot` models one `struct aiocb` of the fixed pool (`bl` array).  The
  `pending` flag models the aio subsystem's view of the slot: it is `true`
  from the `aio_write` call until the `aio_return` call that consumes the
  completion.
* `Env` is the environment oracle: it decides, per dispatch round and slot,
  whether `aio_error` still reports `EINPROGRESS`, which byte count
  `aio_return` reports, whether `aio_write` / `read` / `aio_suspend` /
  `fsync` fail, and which `errno` values the failing calls set.
* `runPass` models one traversal of the `for` loop in `shred_from`
  (src/ashred.c lines 152-190), `mainLoop` the surrounding `while` loop
  (lines 150-202, with explicit fuel since termination depends on the
  environment), `drainLoop` the final collection loop (lines 207-221) and
  `shred_from` the whole function including the `fsync` finalization
  (lines 223-230).
* `shred` models the caller (lines 77-122): priming of the pool via
  `bl_init` plus one blocking `read` per slot, size resolution, the call to
  `shred_from`, and the success-path resource release (`close(randfd)` and
  the `free` of every slot buffer), which the source performs only after a
  successful `shred_from`.

Machine integers: all byte counts and offsets are nonnegative and far below
2^64 in every execution the claims quantify over, so `size_t`/`off_t`
values are modelled as `Nat` and `ssize_t`/`int` return values as `Int`.

An event trace records every dispatched range, every consumed completion
(with both the reported byte count and the byte count that was requested),
every completion error and every buffer refill, so that temporal claims can
be stated about the order of these actions.
-/

namespace Ashred

/-- One `struct aiocb` slot of the pool.  `aio_fildes`, `aio_offset` and
`aio_nbytes` are the fields of the C struct that `shred_from` reads or
writes; `pending` models the aio subsystem's bookkeeping: `true` exactly
while an asynchronous write on this slot is outstanding (dispatched by
`aio_write` and not yet consumed by `aio_return`). -/
structure Slot where
  aio_fildes : Nat
  aio_offset : Nat
  aio_nbytes : Nat
  pending : Bool
deriving DecidableEq, Repr

/-- `bl_init` (src/ashred.c lines 67-75): zero the control block, point
`aio_fildes` at the random source and set `aio_nbytes` to the buffer
capacity.  No write is outstanding. -/
def bl_init (rfd bufSize : Nat) : Slot :=
  { aio_fildes := rfd, aio_offset := 0, aio_nbytes := bufSize, pending := false }

/-- The primed pool built by the loop in `shred` (lines 91-98): `n` slots,
each initialized by `bl_init`. -/
def initPool (rfd bufSize n : Nat) : List Slot :=
  List.replicate n (bl_init rfd bufSize)

/-- Observable actions of the pipeline, in program order.
`dispatch i ofs nb`: `aio_write` issued for slot `i` covering target bytes
`[ofs, ofs+nb)`.  `complete i bcnt nb`: `aio_return` on slot `i` reported
`bcnt` bytes for a write that requested `nb` bytes.  `completeErr i`:
`aio_return` on slot `i` reported a negative value.  `refill i res`: the
blocking `read` from the random source into slot `i`'s buffer returned
`res`. -/
inductive Event where
  | dispatch (i ofs nb : Nat)
  | complete (i bcnt nb : Nat)
  | completeErr (i : Nat)
  | refill (i : Nat) (res : Int)
deriving DecidableEq, Repr

/-- The distinct failure exits of the pipeline.  The C function returns -1
at each of them; they are distinguished by their diagnostic message and by
which call set `errno`.  `fuelOut` is not a C exit: it marks that the
modelled `while` loop did not terminate within the given fuel. -/
inductive RunErr where
  | fuelOut
  | writeDispatchErr
  | writeCompletionErr
  | readErr
  | suspendErr
  | drainCompletionErr
  | flushErr
deriving DecidableEq, Repr

deriving instance DecidableEq for Except

/-- Environment oracle.  Round/slot indexed oracles model the outcomes of
the system calls made inside the main loop; `drainBcnt` gives the byte
count that `aio_return` eventually reports for slot `i` in the drain loop
(the busy-wait at lines 212-213 terminates by assumption); `fsyncRet` is
the return value of `fsync` and `fsyncErrno` the `errno` the C library sets
when `fsync` fails.  The remaining fields are the `errno` values set by the
respective failing calls. -/
structure Env where
  inProgress : Nat → Nat → Bool
  bcnt : Nat → Nat → Int
  writeFail : Nat → Nat → Bool
  readRes : Nat → Nat → Int
  suspendFail : Nat → Bool
  drainBcnt : Nat → Int
  fsyncRet : Int
  fsyncErrno : Int
  werrno : Nat → Nat → Int
  cerrno : Nat → Nat → Int
  rerrno : Nat → Nat → Int
  serrno : Nat → Int
  derrno : Nat → Int

/-- Result of one traversal of the `for` loop over the slot array. -/
structure PassOut where
  slots : List Slot
  off : Nat
  total : Nat
  nread : Nat
  events : List Event
  errno : Int
  err : Option RunErr
deriving Repr

/-- The length truncation at src/ashred.c lines 156-158: a slot about to
be dispatched keeps its `aio_nbytes`, unless that would reach or pass the
end of the target, in which case the length becomes `len - off`. -/
def truncNb (len off nbytes : Nat) : Nat :=
  if nbytes + off ≥ len then len - off else nbytes

/-- One traversal of the `for` loop of `shred_from` (src/ashred.c lines
152-190).  `r` is the surrounding `while` iteration (used to index the
oracle), `i` the current slot index.  A slot whose `aio_fildes` equals the
random-source descriptor is dispatched: its descriptor is retargeted at
`wfd`, its offset set to the cursor, its length truncated to `len - off`
when `aio_nbytes + off >= len`, and `aio_write` is issued; on success the
cursor advances and the loop `break`s once it reaches `len`.  A slot whose
`aio_fildes` equals the target descriptor is polled with `aio_error`; a
consumed completion adds the reported count to `total`, retargets the slot
at the random source and synchronously refills its buffer. -/
def runPass (rfd wfd len : Nat) (env : Env) (r : Nat) :
    Nat → List Slot → Nat → Nat → Nat → List Event → Int → PassOut
  | _, [], off, total, nread, evs, en =>
      { slots := [], off := off, total := total, nread := nread,
        events := evs, errno := en, err := none }
  | i, sl :: rest, off, total, nread, evs, en =>
      if sl.aio_fildes = rfd then
        let nb := truncNb len off sl.aio_nbytes
        let sl1 : Slot :=
          { aio_fildes := wfd, aio_offset := off, aio_nbytes := nb, pending := false }
        if env.writeFail r i then
          { slots := sl1 :: rest, off := off, total := total, nread := nread,
            events := evs, errno := env.werrno r i, err := some RunErr.writeDispatchErr }
        else
          let sl2 : Slot := { sl1 with pending := true }
          let evs2 := evs ++ [Event.dispatch i off nb]
          if off + nb ≥ len then
            { slots := sl2 :: rest, off := off + nb, total := total, nread := nread,
              events := evs2, errno := en, err := none }
          else
            let out := runPass rfd wfd len env r (i + 1) rest (off + nb) total nread evs2 en
            { out with slots := sl2 :: out.slots }
      else if sl.aio_fildes = wfd then
        if env.inProgress r i then
          let out := runPass rfd wfd len env r (i + 1) rest off total nread evs en
          { out with slots := sl :: out.slots }
        else
          let b := env.bcnt r i
          if b < 0 then
            { slots := sl :: rest, off := off, total := total, nread := nread,
              events := evs ++ [Event.completeErr i], errno := env.cerrno r i,
              err := some RunErr.writeCompletionErr }
          else
            let sl1 : Slot := { sl with aio_fildes := rfd, pending := false }
            let evs2 := evs ++ [Event.complete i b.toNat sl.aio_nbytes]
            let res := env.readRes r i
            let evs3 := evs2 ++ [Event.refill i res]
            if res < 0 then
              { slots := sl1 :: rest, off := off, total := total + b.toNat, nread := nread,
                events := evs3, errno := env.rerrno r i, err := some RunErr.readErr }
            else
              let out := runPass rfd wfd len env r (i + 1) rest off (total + b.toNat)
                (nread + 1) evs3 en
              { out with slots := sl1 :: out.slots }
      else
        let out := runPass rfd wfd len env r (i + 1) rest off total nread evs en
        { out with slots := sl :: out.slots }

/-- Result of the main `while` loop. -/
structure MainOut where
  slots : List Slot
  off : Nat
  total : Nat
  events : List Event
  errno : Int
  err : Option RunErr
deriving Repr

/-- The `while (off < len)` loop of `shred_from` (src/ashred.c lines
150-202).  Each iteration runs one pass over the slots; if the pass
refilled no slot (`nread == 0`) the loop blocks in `aio_suspend`, which the
oracle may fail.  Fuel bounds the number of iterations: the loop itself has
no termination guarantee (a write may stay in progress forever). -/
def mainLoop (rfd wfd len : Nat) (env : Env) :
    Nat → Nat → List Slot → Nat → Nat → List Event → Int → MainOut
  | 0, _, slots, off, total, evs, en =>
      if off < len then
        { slots := slots, off := off, total := total, events := evs, errno := en,
          err := some RunErr.fuelOut }
      else
        { slots := slots, off := off, total := total, events := evs, errno := en, err := none }
  | fuel + 1, r, slots, off, total, evs, en =>
      if off < len then
        let p := runPass rfd wfd len env r 0 slots off total 0 evs en
        if p.err = none then
          if p.nread = 0 then
            if env.suspendFail r then
              { slots := p.slots, off := p.off, total := p.total, events := p.events,
                errno := env.serrno r, err := some RunErr.suspendErr }
            else
              mainLoop rfd wfd len env fuel (r + 1) p.slots p.off p.total p.events p.errno
          else
            mainLoop rfd wfd len env fuel (r + 1) p.slots p.off p.total p.events p.errno
        else
          { slots := p.slots, off := p.off, total := p.total, events := p.events,
            errno := p.errno, err := p.err }
      else
        { slots := slots, off := off, total := total, events := evs, errno := en, err := none }

/-- Result of the drain loop. -/
structure DrainOut where
  slots : List Slot
  total : Nat
  events : List Event
  errno : Int
  err : Option RunErr
deriving Repr

/-- The drain loop of `shred_from` (src/ashred.c lines 207-221): every slot
still targeted at `wfd` is busy-waited on and its completion consumed;
slots targeted elsewhere (the random source) are skipped and contribute
nothing. -/
def drainLoop (wfd : Nat) (env : Env) :
    Nat → List Slot → Nat → List Event → Int → DrainOut
  | _, [], total, evs, en =>
      { slots := [], total := total, events := evs, errno := en, err := none }
  | i, sl :: rest, total, evs, en =>
      if sl.aio_fildes ≠ wfd then
        let out := drainLoop wfd env (i + 1) rest total evs en
        { out with slots := sl :: out.slots }
      else
        let b := env.drainBcnt i
        if b < 0 then
          { slots := sl :: rest, total := total, events := evs ++ [Event.completeErr i],
            errno := env.derrno i, err := some RunErr.drainCompletionErr }
        else
          let sl1 : Slot := { sl with pending := false }
          let out := drainLoop wfd env (i + 1) rest (total + b.toNat)
            (evs ++ [Event.complete i b.toNat sl.aio_nbytes]) en
          { out with slots := sl1 :: out.slots }

/-- Final outcome of `shred_from`.  `result` is `.ok total` for the
nonnegative return, `.error e` for a `-1` return distinguished by its exit
site; `errno` is the thread `errno` at return; `blListFreed` records
whether the `bl_list` pointer array was released (the source frees it at
every exit from the function). -/
structure Outcome where
  result : Except RunErr Nat
  events : List Event
  errno : Int
  blListFreed : Bool
  slots : List Slot
deriving Repr

/-- `shred_from` (src/ashred.c lines 143-231): the main loop, release of
the `bl_list` pointer array, the drain loop and the final `fsync`.  The
`fsync` finalization is modelled faithfully to the source slip at lines
223-227: the C library sets `errno` to `fsyncErrno` when the call fails,
but the code then executes `errno = err` where `err` is `fsync`'s return
value, so the outcome's `errno` is `fsyncRet`, not the cause. -/
def shred_from (rfd wfd : Nat) (slots : List Slot) (len : Nat) (env : Env)
    (fuel : Nat) : Outcome :=
  let m := mainLoop rfd wfd len env fuel 0 slots 0 0 [] 0
  if m.err = none then
    let d := drainLoop wfd env 0 m.slots m.total m.events m.errno
    if d.err = none then
      if env.fsyncRet ≠ 0 then
        { result := Except.error RunErr.flushErr, events := d.events,
          errno := env.fsyncRet, blListFreed := true, slots := d.slots }
      else
        { result := Except.ok d.total, events := d.events, errno := d.errno,
          blListFreed := true, slots := d.slots }
    else
      { result := Except.error (d.err.getD RunErr.fuelOut), events := d.events,
        errno := d.errno, blListFreed := true, slots := d.slots }
  else
    { result := Except.error (m.err.getD RunErr.fuelOut), events := m.events,
      errno := m.errno, blListFreed := true, slots := m.slots }

/-- Environment of the caller `shred`: whether opening the random source
fails, the results of the eight priming reads, the `errno` they set, the
result of size resolution (`get_size`), the resolved length, and the
environment handed to `shred_from`. -/
structure ShredEnv where
  openRandFail : Bool
  openErrno : Int
  primeRes : Nat → Int
  primeErrno : Int
  sizeErr : Int
  totalSize : Nat
  fenv : Env

/-- Exit taken by `shred`, mirroring its early `return` statements. -/
inductive ShredRes where
  | openFail (e : Int)
  | primeFail (e : Int)
  | sizeFail (e : Int)
  | fromFail (e : Int)
  | ok (bytes : Nat)
deriving DecidableEq, Repr

/-- Resource ledger of one `shred` run: which exit was taken, whether the
random-source descriptor was closed and whether the slot buffers were
freed before returning, and the pipeline outcome when `shred_from` ran. -/
structure ShredOut where
  res : ShredRes
  randClosed : Bool
  buffersFreed : Bool
  pipeline : Option Outcome
deriving Repr

/-- Per-slot buffer capacity, `buf_size` in `shred` (line 88). -/
def buf_size : Nat := 128 * 1024

/-- Pool size, `blcnt` in `shred` (line 86). -/
def blcnt : Nat := 8

/-- `shred` (src/ashred.c lines 77-122): open the random source, allocate
and prime the eight slots, resolve the target size, run `shred_from`, and
only on its success close the random-source descriptor and free every slot
buffer.  Every early `return` on an error path leaves `randfd` open and the
buffers allocated, exactly as in the source. -/
def shred (rfd wfd : Nat) (senv : ShredEnv) (fuel : Nat) : ShredOut :=
  if senv.openRandFail then
    { res := ShredRes.openFail senv.openErrno, randClosed := false,
      buffersFreed := false, pipeline := none }
  else if (List.range blcnt).any (fun i => senv.primeRes i < 0) then
    { res := ShredRes.primeFail senv.primeErrno, randClosed := false,
      buffersFreed := false, pipeline := none }
  else if senv.sizeErr ≠ 0 then
    { res := ShredRes.sizeFail senv.sizeErr, randClosed := false,
      buffersFreed := false, pipeline := none }
  else
    let o := shred_from rfd wfd (initPool rfd buf_size blcnt) senv.totalSize senv.fenv fuel
    match o.result with
    | Except.error _ =>
        { res := ShredRes.fromFail o.errno, randClosed := false,
          buffersFreed := false, pipeline := some o }
    | Except.ok n =>
        { res := ShredRes.ok n, randClosed := true, buffersFreed := true,
          pipeline := some o }

/-! ### Derived views of the event trace -/

/-- The byte range carried by a dispatch event. -/
def dispOf : Event → Option (Nat × Nat)
  | Event.dispatch _ ofs nb => some (ofs, nb)
  | _ => none

/-- The sequence of dispatched byte ranges, in dispatch (= cursor) order:
each element is `(offset, length)`. -/
def dispTrace (evs : List Event) : List (Nat × Nat) :=
  evs.filterMap dispOf

/-- The requested length carried by a consumed completion event. -/
def compNbOf : Event → Option Nat
  | Event.complete _ _ nb => some nb
  | _ => none

/-- The reported byte count carried by a consumed completion event. -/
def compBcntOf : Event → Option Nat
  | Event.complete _ bcnt _ => some bcnt
  | _ => none

/-- Sum of the requested lengths over all consumed completions. -/
def sumCompNb (evs : List Event) : Nat :=
  (evs.filterMap compNbOf).sum

/-- Sum of the byte counts reported by all consumed completions. -/
def sumCompBcnt (evs : List Event) : Nat :=
  (evs.filterMap compBcntOf).sum

/-- Total `aio_nbytes` of the slots currently targeted at `wfd`, i.e. the
bytes dispatched but not yet consumed by `aio_return`. -/
def pendingNb (wfd : Nat) (slots : List Slot) : Nat :=
  (slots.map (fun sl => if sl.aio_fildes = wfd then sl.aio_nbytes else 0)).sum

/-- Whether, after the events `evs`, slot `i` has an asynchronous write
outstanding: a dispatch starts one, a consumed completion (normal or
erroneous) ends it.  This is computed from the event order alone. -/
def pendingAfter (evs : List Event) (i : Nat) : Bool :=
  evs.foldl
    (fun b e =>
      match e with
      | Event.dispatch j _ _ => if j = i then true else b
      | Event.complete j _ _ => if j = i then false else b
      | Event.completeErr j => if j = i then false else b
      | Event.refill _ _ => b)
    false

/-- Every refill of slot `i` is immediately preceded by a consumed
completion of slot `i`: the random source is read into a buffer only right
after the write using that buffer has been confirmed done. -/
def RefPre (evs : List Event) : Prop :=
  ∀ es i res tl, evs = es ++ Event.refill i res :: tl →
    ∃ es' b nb, es = es' ++ [Event.complete i b nb]

/-- The ranges `t` are consecutive starting at `a`: each range begins
exactly where the previous one ended. -/
def consecutiveFrom : Nat → List (Nat × Nat) → Prop
  | _, [] => True
  | a, (o, l) :: t => o = a ∧ consecutiveFrom (a + l) t

/-- The dispatch-trace invariant: `TraceChunks C len t off` says that `t`
is the sequence of ranges the dispatch loop assigns while advancing the
cursor from `0` to `off`, each of length `min C (len - start)`. -/
inductive TraceChunks (C len : Nat) : List (Nat × Nat) → Nat → Prop where
  | nil : TraceChunks C len [] 0
  | snoc {t o} (h : TraceChunks C len t o) (hlt : o < len) :
      TraceChunks C len (t ++ [(o, min C (len - o))]) (o + min C (len - o))

/-! ### Lemmas about the derived trace views -/

@[simp]
theorem dispTrace_append (a b : List Event) :
    dispTrace (a ++ b) = dispTrace a ++ dispTrace b := by
  simp [dispTrace, List.filterMap_append]

@[simp]
theorem dispTrace_nil : dispTrace [] = [] := rfl

@[simp]
theorem dispTrace_dispatch (i ofs nb : Nat) :
    dispTrace [Event.dispatch i ofs nb] = [(ofs, nb)] := rfl

@[simp]
theorem dispTrace_complete (i b nb : Nat) :
    dispTrace [Event.complete i b nb] = [] := rfl

@[simp]
theorem dispTrace_completeErr (i : Nat) :
    dispTrace [Event.completeErr i] = [] := rfl

@[simp]
theorem dispTrace_refill (i : Nat) (res : Int) :
    dispTrace [Event.refill i res] = [] := rfl

@[simp]
theorem sumCompNb_append (a b : List Event) :
    sumCompNb (a ++ b) = sumCompNb a + sumCompNb b := by
  simp [sumCompNb, List.filterMap_append]

@[simp]
theorem sumCompBcnt_append (a b : List Event) :
    sumCompBcnt (a ++ b) = sumCompBcnt a + sumCompBcnt b := by
  simp [sumCompBcnt, List.filterMap_append]

@[simp] theorem sumCompNb_nil : sumCompNb [] = 0 := rfl

@[simp] theorem sumCompBcnt_nil : sumCompBcnt [] = 0 := rfl

@[simp]
theorem sumCompNb_dispatch (i ofs nb : Nat) : sumCompNb [Event.dispatch i ofs nb] = 0 := rfl

@[simp]
theorem sumCompNb_complete (i b nb : Nat) : sumCompNb [Event.complete i b nb] = nb := by
  simp [sumCompNb, compNbOf]

@[simp]
theorem sumCompNb_completeErr (i : Nat) : sumCompNb [Event.completeErr i] = 0 := rfl

@[simp]
theorem sumCompNb_refill (i : Nat) (res : Int) : sumCompNb [Event.refill i res] = 0 := rfl

@[simp]
theorem sumCompBcnt_dispatch (i ofs nb : Nat) : sumCompBcnt [Event.dispatch i ofs nb] = 0 := rfl

@[simp]
theorem sumCompBcnt_complete (i b nb : Nat) : sumCompBcnt [Event.complete i b nb] = b := by
  simp [sumCompBcnt, compBcntOf]

@[simp]
theorem sumCompBcnt_completeErr (i : Nat) : sumCompBcnt [Event.completeErr i] = 0 := rfl

@[simp]
theorem sumCompBcnt_refill (i : Nat) (res : Int) : sumCompBcnt [Event.refill i res] = 0 := rfl

@[simp]
theorem dispTrace_cons_dispatch (i ofs nb : Nat) (evs : List Event) :
    dispTrace (Event.dispatch i ofs nb :: evs) = (ofs, nb) :: dispTrace evs := rfl

@[simp]
theorem dispTrace_cons_complete (i b nb : Nat) (evs : List Event) :
    dispTrace (Event.complete i b nb :: evs) = dispTrace evs := rfl

@[simp]
theorem dispTrace_cons_completeErr (i : Nat) (evs : List Event) :
    dispTrace (Event.completeErr i :: evs) = dispTrace evs := rfl

@[simp]
theorem dispTrace_cons_refill (i : Nat) (res : Int) (evs : List Event) :
    dispTrace (Event.refill i res :: evs) = dispTrace evs := rfl

@[simp]
theorem sumCompNb_cons_dispatch (i ofs nb : Nat) (evs : List Event) :
    sumCompNb (Event.dispatch i ofs nb :: evs) = sumCompNb evs := rfl

@[simp]
theorem sumCompNb_cons_complete (i b nb : Nat) (evs : List Event) :
    sumCompNb (Event.complete i b nb :: evs) = nb + sumCompNb evs := by
  simp [sumCompNb, compNbOf, List.filterMap_cons]

@[simp]
theorem sumCompNb_cons_completeErr (i : Nat) (evs : List Event) :
    sumCompNb (Event.completeErr i :: evs) = sumCompNb evs := rfl

@[simp]
theorem sumCompNb_cons_refill (i : Nat) (res : Int) (evs : List Event) :
    sumCompNb (Event.refill i res :: evs) = sumCompNb evs := rfl

@[simp]
theorem sumCompBcnt_cons_dispatch (i ofs nb : Nat) (evs : List Event) :
    sumCompBcnt (Event.dispatch i ofs nb :: evs) = sumCompBcnt evs := rfl

@[simp]
theorem sumCompBcnt_cons_complete (i b nb : Nat) (evs : List Event) :
    sumCompBcnt (Event.complete i b nb :: evs) = b + sumCompBcnt evs := by
  simp [sumCompBcnt, compBcntOf, List.filterMap_cons]

@[simp]
theorem sumCompBcnt_cons_completeErr (i : Nat) (evs : List Event) :
    sumCompBcnt (Event.completeErr i :: evs) = sumCompBcnt evs := rfl

@[simp]
theorem sumCompBcnt_cons_refill (i : Nat) (res : Int) (evs : List Event) :
    sumCompBcnt (Event.refill i res :: evs) = sumCompBcnt evs := rfl

@[simp]
theorem pendingNb_nil (wfd : Nat) : pendingNb wfd [] = 0 := rfl

@[simp]
theorem pendingNb_cons (wfd : Nat) (sl : Slot) (rest : List Slot) :
    pendingNb wfd (sl :: rest) =
      (if sl.aio_fildes = wfd then sl.aio_nbytes else 0) + pendingNb wfd rest := by
  simp [pendingNb]

theorem pendingNb_cons_eq {wfd : Nat} {sl : Slot} (h : sl.aio_fildes = wfd)
    (rest : List Slot) :
    pendingNb wfd (sl :: rest) = sl.aio_nbytes + pendingNb wfd rest := by
  simp [pendingNb, h]

theorem pendingNb_cons_ne {wfd : Nat} {sl : Slot} (h : ¬sl.aio_fildes = wfd)
    (rest : List Slot) :
    pendingNb wfd (sl :: rest) = pendingNb wfd rest := by
  simp [pendingNb, h]

/-- If every consumed completion reported exactly its requested length,
the two completion sums agree. -/
theorem sumCompBcnt_eq_sumCompNb (evs : List Event)
    (h : ∀ i b nb, Event.complete i b nb ∈ evs → b = nb) :
    sumCompBcnt evs = sumCompNb evs := by
  induction evs with
  | nil => rfl
  | cons e rest ih =>
      have hrest : ∀ i b nb, Event.complete i b nb ∈ rest → b = nb := by
        intro i b nb hm
        exact h i b nb (List.mem_cons_of_mem _ hm)
      cases e with
      | complete i b nb =>
          have hb : b = nb := h i b nb (List.mem_cons_self _ _)
          have h1 : Event.complete i b nb :: rest = [Event.complete i b nb] ++ rest := rfl
          rw [h1, sumCompBcnt_append, sumCompNb_append, sumCompBcnt_complete,
            sumCompNb_complete, ih hrest, hb]
      | dispatch i ofs nb =>
          have h1 : Event.dispatch i ofs nb :: rest = [Event.dispatch i ofs nb] ++ rest := rfl
          rw [h1, sumCompBcnt_append, sumCompNb_append, sumCompBcnt_dispatch,
            sumCompNb_dispatch, ih hrest]
      | completeErr i =>
          have h1 : Event.completeErr i :: rest = [Event.completeErr i] ++ rest := rfl
          rw [h1, sumCompBcnt_append, sumCompNb_append, sumCompBcnt_completeErr,
            sumCompNb_completeErr, ih hrest]
      | refill i res =>
          have h1 : Event.refill i res :: rest = [Event.refill i res] ++ rest := rfl
          rw [h1, sumCompBcnt_append, sumCompNb_append, sumCompBcnt_refill,
            sumCompNb_refill, ih hrest]

/-- Decomposing `l ++ [e]` at an arbitrary interior element. -/
theorem concat_split {α : Type} {l es tl : List α} {e x : α}
    (h : l ++ [e] = es ++ x :: tl) :
    (es = l ∧ x = e ∧ tl = []) ∨ ∃ tl', tl = tl' ++ [e] ∧ l = es ++ x :: tl' := by
  rcases List.eq_nil_or_concat tl with rfl | ⟨tl', y, rfl⟩
  · left
    have hlen : l.length = es.length := by
      have := congrArg List.length h
      simp at this
      omega
    obtain ⟨h1, h2⟩ := List.append_inj h hlen
    simp at h2
    exact ⟨h1.symm, h2.symm, rfl⟩
  · right
    have h' : l ++ [e] = (es ++ x :: tl') ++ [y] := by simpa using h
    have hlen : l.length = (es ++ x :: tl').length := by
      have := congrArg List.length h'
      simp at this ⊢
      omega
    obtain ⟨h1, h2⟩ := List.append_inj h' hlen
    simp at h2
    subst h2
    exact ⟨tl', by simp, h1⟩

theorem refPre_nil : RefPre [] := by
  intro es i res tl h
  exact absurd h (by simp)

/-- Appending a non-refill event preserves `RefPre`. -/
theorem refPre_snoc {evs : List Event} (hp : RefPre evs) (e : Event)
    (he : ∀ i res, e ≠ Event.refill i res) : RefPre (evs ++ [e]) := by
  intro es i res tl h
  rcases concat_split h with ⟨_, hx, _⟩ | ⟨tl', _, hl⟩
  · exact absurd hx.symm (he i res)
  · exact hp es i res tl' hl

/-- Appending a refill right after the matching completion preserves
`RefPre`. -/
theorem refPre_snoc_refill {evs : List Event} {j b nb : Nat} {r0 : Int}
    (hp : RefPre evs) (hlast : ∃ es', evs = es' ++ [Event.complete j b nb]) :
    RefPre (evs ++ [Event.refill j r0]) := by
  intro es i res tl h
  rcases concat_split h with ⟨he, hx, -⟩ | ⟨tl', -, hl⟩
  · obtain ⟨es', rfl⟩ := hlast
    injection hx with hij hres
    subst hij
    exact ⟨es', b, nb, he⟩
  · exact hp es i res tl' hl

/-- After a completion of slot `i`, no write is outstanding on slot `i`. -/
theorem pendingAfter_snoc_complete (l : List Event) (i b nb : Nat) :
    pendingAfter (l ++ [Event.complete i b nb]) i = false := by
  simp [pendingAfter, List.foldl_append]

/-! ### Lemmas about `TraceChunks` -/

theorem consecutiveFrom_snoc {t : List (Nat × Nat)} {a s m : Nat}
    (h : consecutiveFrom a t) (hs : (t.map Prod.snd).sum = s) :
    consecutiveFrom a (t ++ [(a + s, m)]) := by
  induction t generalizing a s with
  | nil =>
      simp at hs
      subst hs
      simp only [List.nil_append, consecutiveFrom]
      exact ⟨by omega, trivial⟩
  | cons p rest ih =>
      obtain ⟨o, l⟩ := p
      obtain ⟨h1, h2⟩ := h
      subst h1
      simp only [List.map_cons, List.sum_cons] at hs
      simp only [List.cons_append, consecutiveFrom]
      refine ⟨by trivial, ?_⟩
      have hx := ih h2 rfl
      have heq : o + s = o + l + (rest.map Prod.snd).sum := by omega
      rw [heq]
      exact hx

/-- The ranges of a dispatch trace are consecutive from offset `0` and
their lengths sum to the cursor position. -/
theorem traceChunks_consecutive {C len : Nat} {t : List (Nat × Nat)} {off : Nat}
    (h : TraceChunks C len t off) :
    consecutiveFrom 0 t ∧ (t.map Prod.snd).sum = off := by
  induction h with
  | nil => exact ⟨trivial, rfl⟩
  | @snoc t1 o h hlt ih =>
      obtain ⟨hc, hs⟩ := ih
      constructor
      · have hx := consecutiveFrom_snoc (m := min C (len - o)) hc hs
        simpa using hx
      · simp [hs]

/-- Every range of a dispatch trace has length `min C (len - start)`, is
nonempty (given a nonzero capacity), and stays inside `[0, len)`. -/
theorem traceChunks_shape {C len : Nat} (hC : 0 < C) {t : List (Nat × Nat)} {off : Nat}
    (h : TraceChunks C len t off) :
    ∀ p ∈ t, p.2 = min C (len - p.1) ∧ 0 < p.2 ∧ p.1 + p.2 ≤ len := by
  induction h with
  | nil => simp
  | snoc h hlt ih =>
      intro p hp
      rcases List.mem_append.1 hp with hp | hp
      · exact ih p hp
      · simp at hp
        subst hp
        refine ⟨rfl, ?_, ?_⟩ <;> simp <;> omega

/-- Cursor positions reachable by the dispatch loop are multiples of the
buffer capacity, except that the final one is `len` itself. -/
theorem traceChunks_align {C len : Nat} {t : List (Nat × Nat)} {off : Nat}
    (h : TraceChunks C len t off) :
    (C ∣ off ∧ off ≤ len) ∨ off = len := by
  induction h with
  | nil => exact Or.inl ⟨dvd_zero C, Nat.zero_le _⟩
  | snoc h hlt ih =>
      rcases ih with ⟨⟨k, rfl⟩, hle⟩ | rfl
      · by_cases hcl : C ≤ len - C * k
        · left
          have hm : min C (len - C * k) = C := Nat.min_eq_left hcl
          constructor
          · exact ⟨k + 1, by rw [hm]; ring⟩
          · omega
        · right
          have hm : min C (len - C * k) = len - C * k := by omega
          omega
      · exact absurd hlt (lt_irrefl _)

theorem dvd_lt_add_le {C a b : Nat} (hC : 0 < C) (ha : C ∣ a) (hb : C ∣ b)
    (hab : a < b) : a + C ≤ b := by
  obtain ⟨i, rfl⟩ := ha
  obtain ⟨j, rfl⟩ := hb
  have hij : i + 1 ≤ j := by
    by_contra hcon
    push_neg at hcon
    have : C * j ≤ C * i := Nat.mul_le_mul (le_refl C) (by omega)
    omega
  have : C * (i + 1) ≤ C * j := Nat.mul_le_mul (le_refl C) hij
  calc C * i + C = C * (i + 1) := by ring
    _ ≤ C * j := this

/-- Inversion principle for `TraceChunks`. -/
theorem traceChunks_cases {C len : Nat} {t : List (Nat × Nat)} {off : Nat}
    (h : TraceChunks C len t off) :
    (t = [] ∧ off = 0) ∨
      ∃ t' o, TraceChunks C len t' o ∧ o < len ∧
        t = t' ++ [(o, min C (len - o))] ∧ off = o + min C (len - o) := by
  cases h with
  | nil => exact Or.inl ⟨rfl, rfl⟩
  | snoc h hlt => exact Or.inr ⟨_, _, h, hlt, rfl, rfl⟩

/-- For a nonzero capacity, the dispatch trace reaching a given cursor
position is unique. -/
theorem traceChunks_unique {C len : Nat} (hC : 0 < C) {t : List (Nat × Nat)} {off : Nat}
    (h1 : TraceChunks C len t off) :
    ∀ {t' : List (Nat × Nat)}, TraceChunks C len t' off → t = t' := by
  induction h1 with
  | nil =>
      intro t' h2
      rcases traceChunks_cases h2 with ⟨rfl, -⟩ | ⟨t2, o2, h2', hlt2, rfl, hoff⟩
      · rfl
      · exfalso
        omega
  | @snoc t1 o h hlt ih =>
      intro t' h2
      rcases traceChunks_cases h2 with ⟨rfl, hoff⟩ | ⟨t2, o2, h2', hlt2, rfl, hoff⟩
      · exfalso
        omega
      · have hd1 : C ∣ o := by
          rcases traceChunks_align h with ⟨hd, -⟩ | heq
          · exact hd
          · exact absurd heq (by omega)
        have hd2 : C ∣ o2 := by
          rcases traceChunks_align h2' with ⟨hd, -⟩ | heq
          · exact hd
          · exact absurd heq (by omega)
        have ho : o = o2 := by
          rcases Nat.lt_trichotomy o o2 with hlt12 | heq | hlt21
          · have := dvd_lt_add_le hC hd1 hd2 hlt12
            omega
          · exact heq
          · have := dvd_lt_add_le hC hd2 hd1 hlt21
            omega
        subst ho
        rw [ih h2']

/-- The final assigned range: its length is `len mod C` when `C` does not
divide `len`, and `C` otherwise. -/
theorem traceChunks_last {C len : Nat} {t : List (Nat × Nat)}
    (h : TraceChunks C len t len) (hpos : 0 < len) :
    ∃ t' o, t = t' ++ [(o, min C (len - o))] ∧
      min C (len - o) = (if len % C = 0 then C else len % C) := by
  rcases traceChunks_cases h with ⟨-, h0⟩ | ⟨t2, o, h2, hlt, rfl, hoff⟩
  · omega
  · refine ⟨t2, o, rfl, ?_⟩
    have hd : C ∣ o := by
      rcases traceChunks_align h2 with ⟨hd, -⟩ | heq
      · exact hd
      · exact absurd heq (by omega)
    obtain ⟨k, rfl⟩ := hd
    by_cases hcl : C ≤ len - C * k
    · have hm : min C (len - C * k) = C := Nat.min_eq_left hcl
      have hlen : len = C * (k + 1) := by
        rw [hm] at hoff
        rw [Nat.mul_add, Nat.mul_one]
        omega
      have hmod : len % C = 0 := by
        rw [hlen]
        exact Nat.mul_mod_right C (k + 1)
      rw [if_pos hmod]
      exact hm
    · have hm : min C (len - C * k) = len - C * k := by omega
      have hmod : len % C = len - C * k := by
        have h1 : len = (len - C * k) + k * C := by
          have := Nat.mul_comm C k
          omega
        have h2 : ((len - C * k) + k * C) % C = len - C * k := by
          rw [Nat.add_mul_mod_self_right]
          exact Nat.mod_eq_of_lt (by omega)
        calc len % C = ((len - C * k) + k * C) % C := by rw [← h1]
          _ = len - C * k := h2
      have hne : len % C ≠ 0 := by omega
      rw [if_neg hne, hm, hmod]

/-- Consecutive nonempty ranges are pairwise ordered and disjoint. -/
theorem consecutiveFrom_pairwise {t : List (Nat × Nat)} :
    ∀ a, consecutiveFrom a t → (∀ p ∈ t, 0 < p.2) →
      t.Pairwise (fun p q => p.1 + p.2 ≤ q.1) ∧ ∀ p ∈ t, a ≤ p.1 := by
  induction t with
  | nil => exact fun a _ _ => ⟨List.Pairwise.nil, by simp⟩
  | cons p rest ih =>
      intro a hc hpos
      obtain ⟨o, l⟩ := p
      obtain ⟨rfl, hc2⟩ := hc
      obtain ⟨hpw, hge⟩ := ih (o + l) hc2 (fun q hq => hpos q (List.mem_cons_of_mem _ hq))
      constructor
      · refine List.Pairwise.cons ?_ hpw
        intro q hq
        have := hge q hq
        simp only []
        omega
      · intro q hq
        rcases List.mem_cons.1 hq with rfl | hq
        · exact le_refl _
        · have h1 := hge q hq
          have h2 : 0 < l := hpos (o, l) (List.mem_cons_self _ _)
          omega

/-! ### Per-slot invariant of the dispatch/completion loop -/

/-- The truncation applied to a full-capacity slot yields exactly
`min C (len - off)`. -/
theorem truncNb_eq_min {len off C : Nat} (h : off < len) :
    truncNb len off C = min C (len - off) := by
  simp only [truncNb]
  split_ifs with h1
  · omega
  · omega

/-- Invariant of a slot while the dispatch loop runs with cursor `off`: its
descriptor is the random source or the target; a random-source slot has a
full-capacity buffer and no outstanding write; a target slot has an
outstanding write, of full capacity as long as the cursor has not reached
the end (the truncated final dispatch advances the cursor to `len`
immediately). -/
def slotOk (rfd wfd C len off : Nat) (sl : Slot) : Prop :=
  (sl.aio_fildes = rfd ∨ sl.aio_fildes = wfd) ∧
  (sl.aio_fildes = rfd → sl.aio_nbytes = C ∧ sl.pending = false) ∧
  (sl.aio_fildes = wfd → sl.pending = true ∧ (off < len → sl.aio_nbytes = C))

theorem slotOk_mono {rfd wfd C len off off' : Nat} {sl : Slot}
    (h : slotOk rfd wfd C len off sl) (hle : off ≤ off') :
    slotOk rfd wfd C len off' sl := by
  obtain ⟨h1, h2, h3⟩ := h
  refine ⟨h1, h2, fun hw => ⟨(h3 hw).1, fun hlt => (h3 hw).2 (by omega)⟩⟩

/-! ### What one pass of the `for` loop does to the event trace -/

theorem runPass_events_append (rfd wfd len : Nat) (env : Env) (r : Nat) :
    ∀ (slots : List Slot) (i off total nread : Nat) (evs : List Event) (en : Int),
      ∃ d, (runPass rfd wfd len env r i slots off total nread evs en).events = evs ++ d := by
  intro slots
  induction slots with
  | nil =>
      intro i off total nread evs en
      exact ⟨[], by simp [runPass]⟩
  | cons sl rest ih =>
      intro i off total nread evs en
      simp only [runPass]
      split_ifs with h1 h2 h3 h4 h5 h6 h7
      · exact ⟨[], by simp⟩
      · exact ⟨[Event.dispatch i off (truncNb len off sl.aio_nbytes)], by simp⟩
      · obtain ⟨d, hd⟩ := ih (i + 1) (off + truncNb len off sl.aio_nbytes) total nread
          (evs ++ [Event.dispatch i off (truncNb len off sl.aio_nbytes)]) en
        exact ⟨[Event.dispatch i off (truncNb len off sl.aio_nbytes)] ++ d, by simpa using hd⟩
      · obtain ⟨d, hd⟩ := ih (i + 1) off total nread evs en
        exact ⟨d, by simpa using hd⟩
      · exact ⟨[Event.completeErr i], by simp⟩
      · exact ⟨[Event.complete i (env.bcnt r i).toNat sl.aio_nbytes,
          Event.refill i (env.readRes r i)], by simp⟩
      · obtain ⟨d, hd⟩ := ih (i + 1) off (total + (env.bcnt r i).toNat) (nread + 1)
          (evs ++ [Event.complete i (env.bcnt r i).toNat sl.aio_nbytes] ++
            [Event.refill i (env.readRes r i)]) en
        exact ⟨[Event.complete i (env.bcnt r i).toNat sl.aio_nbytes,
          Event.refill i (env.readRes r i)] ++ d, by simpa using hd⟩
      · obtain ⟨d, hd⟩ := ih (i + 1) off total nread evs en
        exact ⟨d, by simpa using hd⟩

/-- A pass preserves the refill discipline of the event trace. -/
theorem runPass_refPre (rfd wfd len : Nat) (env : Env) (r : Nat) :
    ∀ (slots : List Slot) (i off total nread : Nat) (evs : List Event) (en : Int),
      RefPre evs →
      RefPre (runPass rfd wfd len env r i slots off total nread evs en).events := by
  intro slots
  induction slots with
  | nil =>
      intro i off total nread evs en hp
      simpa [runPass] using hp
  | cons sl rest ih =>
      intro i off total nread evs en hp
      simp only [runPass]
      split_ifs with h1 h2 h3 h4 h5 h6 h7
      · simpa using hp
      · simpa using refPre_snoc hp _ (fun _ _ => by simp)
      · exact ih (i + 1) (off + truncNb len off sl.aio_nbytes) total nread
          (evs ++ [Event.dispatch i off (truncNb len off sl.aio_nbytes)]) en
          (refPre_snoc hp _ (fun _ _ => by simp))
      · exact ih (i + 1) off total nread evs en hp
      · simpa using refPre_snoc hp _ (fun _ _ => by simp)
      · simpa using refPre_snoc_refill
          (refPre_snoc hp (Event.complete i (env.bcnt r i).toNat sl.aio_nbytes)
            (fun _ _ => by simp))
          ⟨evs, rfl⟩
      · exact ih (i + 1) off (total + (env.bcnt r i).toNat) (nread + 1)
          (evs ++ [Event.complete i (env.bcnt r i).toNat sl.aio_nbytes] ++
            [Event.refill i (env.readRes r i)]) en
          (refPre_snoc_refill
            (refPre_snoc hp (Event.complete i (env.bcnt r i).toNat sl.aio_nbytes)
              (fun _ _ => by simp))
            ⟨evs, rfl⟩)
      · exact ih (i + 1) off total nread evs en hp

/-- A completion-error exit of a pass leaves the `completeErr` event as the
last event of the trace, and no other exit introduces one. -/
theorem runPass_completeErr (rfd wfd len : Nat) (env : Env) (r : Nat) :
    ∀ (slots : List Slot) (i off total nread : Nat) (evs : List Event) (en : Int),
      (∀ j, Event.completeErr j ∉ evs) →
      (((runPass rfd wfd len env r i slots off total nread evs en).err =
          some RunErr.writeCompletionErr →
        ∃ es j, (runPass rfd wfd len env r i slots off total nread evs en).events =
          es ++ [Event.completeErr j]) ∧
      ((runPass rfd wfd len env r i slots off total nread evs en).err ≠
          some RunErr.writeCompletionErr →
        ∀ j, Event.completeErr j ∉
          (runPass rfd wfd len env r i slots off total nread evs en).events)) := by
  intro slots
  induction slots with
  | nil =>
      intro i off total nread evs en hno
      refine ⟨fun h => ?_, fun _ => by simpa [runPass] using hno⟩
      simp [runPass] at h
  | cons sl rest ih =>
      intro i off total nread evs en hno
      simp only [runPass]
      split_ifs with h1 h2 h3 h4 h5 h6 h7
      · refine ⟨fun h => ?_, fun _ => by simpa using hno⟩
        simp at h
      · refine ⟨fun h => ?_, fun _ j => ?_⟩
        · simp at h
        · simp [List.mem_append]
          exact hno j
      · refine ih (i + 1) (off + truncNb len off sl.aio_nbytes) total nread
          (evs ++ [Event.dispatch i off (truncNb len off sl.aio_nbytes)]) en (fun j => ?_)
        simp [List.mem_append]
        exact hno j
      · exact ih (i + 1) off total nread evs en hno
      · refine ⟨fun _ => ⟨evs, i, by simp⟩, fun h => ?_⟩
        simp at h
      · refine ⟨fun h => ?_, fun _ j => ?_⟩
        · simp at h
        · simp [List.mem_append]
          exact hno j
      · refine ih (i + 1) off (total + (env.bcnt r i).toNat) (nread + 1)
          (evs ++ [Event.complete i (env.bcnt r i).toNat sl.aio_nbytes] ++
            [Event.refill i (env.readRes r i)]) en (fun j => ?_)
        simp [List.mem_append]
        exact hno j
      · exact ih (i + 1) off total nread evs en hno

/-- A `readErr` exit of a pass can only arise from a negative read result
supplied by the environment. -/
theorem runPass_readErr (rfd wfd len : Nat) (env : Env) (r : Nat) :
    ∀ (slots : List Slot) (i off total nread : Nat) (evs : List Event) (en : Int),
      (runPass rfd wfd len env r i slots off total nread evs en).err =
        some RunErr.readErr →
      ∃ r' i', env.readRes r' i' < 0 := by
  intro slots
  induction slots with
  | nil =>
      intro i off total nread evs en h
      simp [runPass] at h
  | cons sl rest ih =>
      intro i off total nread evs en h
      simp only [runPass] at h
      split_ifs at h with h1 h2 h3 h4 h5 h6 h7
      all_goals try exact ⟨r, i, h7⟩
      all_goals simp at h
      all_goals exact ih _ _ _ _ _ _ h

/-- A pass leaves every slot's descriptor in the two-element set
`{rfd, wfd}` whenever it started there. -/
theorem runPass_fildes (rfd wfd len : Nat) (env : Env) (r : Nat) (P : Nat → Prop)
    (hPr : P rfd) (hPw : P wfd) :
    ∀ (slots : List Slot) (i off total nread : Nat) (evs : List Event) (en : Int),
      (∀ sl ∈ slots, P sl.aio_fildes) →
      ∀ sl ∈ (runPass rfd wfd len env r i slots off total nread evs en).slots,
        P sl.aio_fildes := by
  intro slots
  induction slots with
  | nil =>
      intro i off total nread evs en _ sl hsl
      simp [runPass] at hsl
  | cons sl rest ih =>
      intro i off total nread evs en hall q hq
      have hrest : ∀ x ∈ rest, P x.aio_fildes :=
        fun x hx => hall x (List.mem_cons_of_mem _ hx)
      simp only [runPass] at hq
      split_ifs at hq with h1 h2 h3 h4 h5 h6 h7
      · simp at hq
        rcases hq with rfl | hq
        · exact hPw
        · exact hrest q hq
      · simp at hq
        rcases hq with rfl | hq
        · exact hPw
        · exact hrest q hq
      · simp at hq
        rcases hq with rfl | hq
        · exact hPw
        · exact ih _ _ _ _ _ _ hrest q hq
      · simp at hq
        rcases hq with rfl | hq
        · exact hall _ (List.mem_cons_self _ _)
        · exact ih _ _ _ _ _ _ hrest q hq
      · simp at hq
        rcases hq with rfl | hq
        · exact hall _ (List.mem_cons_self _ _)
        · exact hrest q hq
      · simp at hq
        rcases hq with rfl | hq
        · exact hPr
        · exact hrest q hq
      · simp at hq
        rcases hq with rfl | hq
        · exact hPr
        · exact ih _ _ _ _ _ _ hrest q hq
      · simp at hq
        rcases hq with rfl | hq
        · exact hall _ (List.mem_cons_self _ _)
        · exact ih _ _ _ _ _ _ hrest q hq

/-- The invariant one pass maintains: the cursor only advances and stays
within the target, the dispatch trace keeps tracking the cursor as
`TraceChunks`, and on a normal exit every slot is well-formed at the new
cursor while the conservation equations between cursor, in-flight bytes
and consumed completions hold. -/
def PassInv (rfd wfd C len off total : Nat) (evs : List Event) (slots : List Slot)
    (out : PassOut) : Prop :=
  off ≤ out.off ∧
  out.off ≤ len ∧
  TraceChunks C len (dispTrace out.events) out.off ∧
  (out.err = none →
    (∀ sl ∈ out.slots, slotOk rfd wfd C len out.off sl) ∧
    sumCompNb out.events + pendingNb wfd out.slots + off
      = sumCompNb evs + pendingNb wfd slots + out.off ∧
    out.total + sumCompBcnt evs = total + sumCompBcnt out.events)

theorem runPass_inv (rfd wfd C len : Nat) (env : Env) (r : Nat) (hrw : rfd ≠ wfd) :
    ∀ (slots : List Slot) (i off total nread : Nat) (evs : List Event) (en : Int),
      off < len →
      (∀ sl ∈ slots, slotOk rfd wfd C len off sl) →
      TraceChunks C len (dispTrace evs) off →
      PassInv rfd wfd C len off total evs slots
        (runPass rfd wfd len env r i slots off total nread evs en) := by
  intro slots
  induction slots with
  | nil =>
      intro i off total nread evs en hlt hok hch
      refine ⟨le_refl _, hlt.le, hch, fun _ => ⟨by simp [runPass], ?_, ?_⟩⟩
      · simp [runPass]
      · simp [runPass]
  | cons sl rest ih =>
      intro i off total nread evs en hlt hok hch
      obtain ⟨hh1, hh2, hh3⟩ := hok sl (List.mem_cons_self _ _)
      have hrest : ∀ x ∈ rest, slotOk rfd wfd C len off x :=
        fun x hx => hok x (List.mem_cons_of_mem _ hx)
      simp only [runPass]
      split_ifs with h1 h2 h3 h4 h5 h6 h7
      · -- dispatch, aio_write fails: error exit, nothing is recorded
        exact ⟨le_refl _, hlt.le, hch, fun hn => by simp at hn⟩
      · -- dispatch, cursor reaches the end: break out of the pass
        have hCf := hh2 h1
        have hnb : truncNb len off sl.aio_nbytes = min C (len - off) := by
          rw [hCf.1]
          exact truncNb_eq_min hlt
        have h3' : len ≤ off + truncNb len off sl.aio_nbytes := h3
        have hne : ¬sl.aio_fildes = wfd := by
          rw [h1]
          exact hrw
        refine ⟨Nat.le_add_right _ _, ?_, ?_, fun _ => ⟨?_, ?_, ?_⟩⟩
        · show off + truncNb len off sl.aio_nbytes ≤ len
          omega
        · have hc2 := TraceChunks.snoc hch hlt
          rw [← hnb] at hc2
          show TraceChunks C len
            (dispTrace (evs ++ [Event.dispatch i off (truncNb len off sl.aio_nbytes)]))
            (off + truncNb len off sl.aio_nbytes)
          simpa using hc2
        · intro x hx
          dsimp only at hx
          rcases List.mem_cons.1 hx with rfl | hx
          · refine ⟨Or.inr rfl, fun hr => absurd hr.symm hrw, fun _ => ⟨rfl, fun hl => ?_⟩⟩
            have hl' : off + truncNb len off sl.aio_nbytes < len := hl
            omega
          · exact slotOk_mono (hrest x hx) (Nat.le_add_right _ _)
        · dsimp only
          have e2 : pendingNb wfd (sl :: rest) = pendingNb wfd rest := pendingNb_cons_ne hne rest
          simp only [sumCompNb_append, sumCompNb_dispatch, pendingNb_cons, e2]
          simp
          omega
        · dsimp only
          simp
      · -- dispatch, more target bytes remain: continue the pass
        have hCf := hh2 h1
        have hnb : truncNb len off sl.aio_nbytes = min C (len - off) := by
          rw [hCf.1]
          exact truncNb_eq_min hlt
        have h3' : ¬len ≤ off + truncNb len off sl.aio_nbytes := h3
        have hlt' : off + truncNb len off sl.aio_nbytes < len := by omega
        have hnbC : truncNb len off sl.aio_nbytes = C := by omega
        have hne : ¬sl.aio_fildes = wfd := by
          rw [h1]
          exact hrw
        have hch' : TraceChunks C len
            (dispTrace (evs ++ [Event.dispatch i off (truncNb len off sl.aio_nbytes)]))
            (off + truncNb len off sl.aio_nbytes) := by
          have hc2 := TraceChunks.snoc hch hlt
          rw [← hnb] at hc2
          simpa using hc2
        obtain ⟨ih1, ih2, ih3, ih4⟩ := ih (i + 1) (off + truncNb len off sl.aio_nbytes) total
          nread (evs ++ [Event.dispatch i off (truncNb len off sl.aio_nbytes)]) en hlt'
          (fun x hx => slotOk_mono (hrest x hx) (Nat.le_add_right _ _)) hch'
        refine ⟨le_trans (Nat.le_add_right _ _) ih1, ih2, ih3, fun hn => ?_⟩
        have hn' : (runPass rfd wfd len env r (i + 1) rest
            (off + truncNb len off sl.aio_nbytes) total nread
            (evs ++ [Event.dispatch i off (truncNb len off sl.aio_nbytes)]) en).err = none := hn
        obtain ⟨ha, hb, hc⟩ := ih4 hn'
        refine ⟨?_, ?_, ?_⟩
        · intro x hx
          dsimp only at hx
          rcases List.mem_cons.1 hx with rfl | hx
          · exact ⟨Or.inr rfl, fun hr => absurd hr.symm hrw,
              fun _ => ⟨rfl, fun _ => hnbC⟩⟩
          · exact ha x hx
        · dsimp only
          have e2 : pendingNb wfd (sl :: rest) = pendingNb wfd rest := pendingNb_cons_ne hne rest
          simp only [sumCompNb_append, sumCompNb_dispatch] at hb
          simp only [pendingNb_cons, e2]
          simp
          omega
        · dsimp only
          simp only [sumCompBcnt_append, sumCompBcnt_dispatch] at hc
          omega
      · -- write still in progress: skip the slot
        obtain ⟨ih1, ih2, ih3, ih4⟩ := ih (i + 1) off total nread evs en hlt hrest hch
        refine ⟨ih1, ih2, ih3, fun hn => ?_⟩
        have hn' : (runPass rfd wfd len env r (i + 1) rest off total nread evs en).err =
          none := hn
        obtain ⟨ha, hb, hc⟩ := ih4 hn'
        refine ⟨?_, ?_, ?_⟩
        · intro x hx
          dsimp only at hx
          rcases List.mem_cons.1 hx with rfl | hx
          · exact slotOk_mono ⟨hh1, hh2, hh3⟩ ih1
          · exact ha x hx
        · dsimp only
          have e1 : pendingNb wfd (sl ::
              (runPass rfd wfd len env r (i + 1) rest off total nread evs en).slots) =
              sl.aio_nbytes + pendingNb wfd
                (runPass rfd wfd len env r (i + 1) rest off total nread evs en).slots :=
            pendingNb_cons_eq h4 _
          have e2 : pendingNb wfd (sl :: rest) = sl.aio_nbytes + pendingNb wfd rest :=
            pendingNb_cons_eq h4 rest
          omega
        · exact hc
      · -- completion reports an error: abort
        refine ⟨le_refl _, hlt.le, ?_, fun hn => by simp at hn⟩
        show TraceChunks C len (dispTrace (evs ++ [Event.completeErr i])) off
        simpa using hch
      · -- refill read fails: abort
        refine ⟨le_refl _, hlt.le, ?_, fun hn => by simp at hn⟩
        show TraceChunks C len (dispTrace (evs ++
          [Event.complete i (env.bcnt r i).toNat sl.aio_nbytes] ++
          [Event.refill i (env.readRes r i)])) off
        simpa using hch
      · -- completion consumed, slot refilled: continue the pass
        have hslC : sl.aio_nbytes = C := (hh3 h4).2 hlt
        rw [List.append_assoc]
        simp only [List.singleton_append]
        have hch' : TraceChunks C len
            (dispTrace (evs ++ [Event.complete i (env.bcnt r i).toNat sl.aio_nbytes,
              Event.refill i (env.readRes r i)])) off := by
          simpa using hch
        obtain ⟨ih1, ih2, ih3, ih4⟩ := ih (i + 1) off (total + (env.bcnt r i).toNat)
          (nread + 1) (evs ++ [Event.complete i (env.bcnt r i).toNat sl.aio_nbytes,
            Event.refill i (env.readRes r i)]) en hlt hrest hch'
        refine ⟨ih1, ih2, ih3, fun hn => ?_⟩
        have hn' : (runPass rfd wfd len env r (i + 1) rest off (total + (env.bcnt r i).toNat)
            (nread + 1) (evs ++ [Event.complete i (env.bcnt r i).toNat sl.aio_nbytes,
              Event.refill i (env.readRes r i)]) en).err = none := hn
        obtain ⟨ha, hb, hc⟩ := ih4 hn'
        refine ⟨?_, ?_, ?_⟩
        · intro x hx
          dsimp only at hx
          rcases List.mem_cons.1 hx with rfl | hx
          · exact ⟨Or.inl rfl, fun _ => ⟨hslC, rfl⟩, fun hw => absurd hw hrw⟩
          · exact ha x hx
        · dsimp only
          have e1 : pendingNb wfd
              ({ aio_fildes := rfd, aio_offset := sl.aio_offset,
                 aio_nbytes := sl.aio_nbytes, pending := false } ::
                (runPass rfd wfd len env r (i + 1) rest off (total + (env.bcnt r i).toNat)
                  (nread + 1) (evs ++ [Event.complete i (env.bcnt r i).toNat sl.aio_nbytes,
                    Event.refill i (env.readRes r i)]) en).slots) =
              pendingNb wfd
                (runPass rfd wfd len env r (i + 1) rest off (total + (env.bcnt r i).toNat)
                  (nread + 1) (evs ++ [Event.complete i (env.bcnt r i).toNat sl.aio_nbytes,
                    Event.refill i (env.readRes r i)]) en).slots :=
            pendingNb_cons_ne hrw _
          have e2 : pendingNb wfd (sl :: rest) = sl.aio_nbytes + pendingNb wfd rest :=
            pendingNb_cons_eq h4 rest
          simp only [sumCompNb_append, sumCompNb_cons_complete, sumCompNb_cons_refill,
            sumCompNb_nil] at hb
          omega
        · dsimp only
          simp only [sumCompBcnt_append, sumCompBcnt_cons_complete, sumCompBcnt_cons_refill,
            sumCompBcnt_nil] at hc
          omega
      · -- a slot targeted at neither descriptor cannot arise
        rcases hh1 with h | h
        · exact absurd h h1
        · exact absurd h h4

/-! ### What the main loop does to the event trace -/

theorem mainLoop_events_append (rfd wfd len : Nat) (env : Env) :
    ∀ (fuel r : Nat) (slots : List Slot) (off total : Nat) (evs : List Event) (en : Int),
      ∃ d, (mainLoop rfd wfd len env fuel r slots off total evs en).events = evs ++ d := by
  intro fuel
  induction fuel with
  | zero =>
      intro r slots off total evs en
      simp only [mainLoop]
      split_ifs <;> exact ⟨[], by simp⟩
  | succ fuel ih =>
      intro r slots off total evs en
      simp only [mainLoop]
      obtain ⟨d1, hd1⟩ := runPass_events_append rfd wfd len env r slots 0 off total 0 evs en
      generalize hpdef : runPass rfd wfd len env r 0 slots off total 0 evs en = p
      rw [hpdef] at hd1
      split_ifs with hoff hp hn0 hsf
      · exact ⟨d1, by simpa using hd1⟩
      · obtain ⟨d2, hd2⟩ := ih (r + 1) p.slots p.off p.total p.events p.errno
        exact ⟨d1 ++ d2, by rw [hd2, hd1, List.append_assoc]⟩
      · obtain ⟨d2, hd2⟩ := ih (r + 1) p.slots p.off p.total p.events p.errno
        exact ⟨d1 ++ d2, by rw [hd2, hd1, List.append_assoc]⟩
      · exact ⟨d1, by simpa using hd1⟩
      · exact ⟨[], by simp⟩

theorem mainLoop_refPre (rfd wfd len : Nat) (env : Env) :
    ∀ (fuel r : Nat) (slots : List Slot) (off total : Nat) (evs : List Event) (en : Int),
      RefPre evs →
      RefPre (mainLoop rfd wfd len env fuel r slots off total evs en).events := by
  intro fuel
  induction fuel with
  | zero =>
      intro r slots off total evs en hp
      simp only [mainLoop]
      split_ifs <;> simpa using hp
  | succ fuel ih =>
      intro r slots off total evs en hpre
      simp only [mainLoop]
      have hr := runPass_refPre rfd wfd len env r slots 0 off total 0 evs en hpre
      generalize hpdef : runPass rfd wfd len env r 0 slots off total 0 evs en = p
      rw [hpdef] at hr
      split_ifs with hoff hp hn0 hsf
      · simpa using hr
      · exact ih (r + 1) p.slots p.off p.total p.events p.errno hr
      · exact ih (r + 1) p.slots p.off p.total p.events p.errno hr
      · simpa using hr
      · simpa using hpre

theorem mainLoop_completeErr (rfd wfd len : Nat) (env : Env) :
    ∀ (fuel r : Nat) (slots : List Slot) (off total : Nat) (evs : List Event) (en : Int),
      (∀ j, Event.completeErr j ∉ evs) →
      (((mainLoop rfd wfd len env fuel r slots off total evs en).err =
          some RunErr.writeCompletionErr →
        ∃ es j, (mainLoop rfd wfd len env fuel r slots off total evs en).events =
          es ++ [Event.completeErr j]) ∧
      ((mainLoop rfd wfd len env fuel r slots off total evs en).err ≠
          some RunErr.writeCompletionErr →
        ∀ j, Event.completeErr j ∉
          (mainLoop rfd wfd len env fuel r slots off total evs en).events)) := by
  intro fuel
  induction fuel with
  | zero =>
      intro r slots off total evs en hno
      simp only [mainLoop]
      split_ifs
      · exact ⟨fun h => by simp at h, fun _ => by simpa using hno⟩
      · exact ⟨fun h => by simp at h, fun _ => by simpa using hno⟩
  | succ fuel ih =>
      intro r slots off total evs en hno
      simp only [mainLoop]
      obtain ⟨hc1, hc2⟩ := runPass_completeErr rfd wfd len env r slots 0 off total 0 evs en hno
      generalize hpdef : runPass rfd wfd len env r 0 slots off total 0 evs en = p
      rw [hpdef] at hc1 hc2
      split_ifs with hoff hp hn0 hsf
      · refine ⟨fun h => by simp at h, fun _ => ?_⟩
        have : p.err ≠ some RunErr.writeCompletionErr := by rw [hp]; simp
        simpa using hc2 this
      · have hnop : ∀ j, Event.completeErr j ∉ p.events := by
          refine hc2 ?_
          rw [hp]
          simp
        exact ih (r + 1) p.slots p.off p.total p.events p.errno hnop
      · have hnop : ∀ j, Event.completeErr j ∉ p.events := by
          refine hc2 ?_
          rw [hp]
          simp
        exact ih (r + 1) p.slots p.off p.total p.events p.errno hnop
      · constructor
        · intro h
          have hh : p.err = some RunErr.writeCompletionErr := h
          obtain ⟨es, j, hes⟩ := hc1 hh
          exact ⟨es, j, by simpa using hes⟩
        · intro h
          have hh : p.err ≠ some RunErr.writeCompletionErr := h
          simpa using hc2 hh
      · exact ⟨fun h => by simp at h, fun _ => by simpa using hno⟩

theorem mainLoop_readErr (rfd wfd len : Nat) (env : Env) :
    ∀ (fuel r : Nat) (slots : List Slot) (off total : Nat) (evs : List Event) (en : Int),
      (mainLoop rfd wfd len env fuel r slots off total evs en).err = some RunErr.readErr →
      ∃ r' i', env.readRes r' i' < 0 := by
  intro fuel
  induction fuel with
  | zero =>
      intro r slots off total evs en h
      simp only [mainLoop] at h
      split_ifs at h <;> simp at h
  | succ fuel ih =>
      intro r slots off total evs en h
      simp only [mainLoop] at h
      split_ifs at h with hoff hp hn0 hsf
      all_goals first
        | exact ih _ _ _ _ _ _ h
        | exact runPass_readErr rfd wfd len env r slots 0 off total 0 evs en h
        | simp at h

theorem mainLoop_fildes (rfd wfd len : Nat) (env : Env) (P : Nat → Prop)
    (hPr : P rfd) (hPw : P wfd) :
    ∀ (fuel r : Nat) (slots : List Slot) (off total : Nat) (evs : List Event) (en : Int),
      (∀ sl ∈ slots, P sl.aio_fildes) →
      ∀ sl ∈ (mainLoop rfd wfd len env fuel r slots off total evs en).slots,
        P sl.aio_fildes := by
  intro fuel
  induction fuel with
  | zero =>
      intro r slots off total evs en hall q hq
      simp only [mainLoop] at hq
      split_ifs at hq <;> exact hall q (by simpa using hq)
  | succ fuel ih =>
      intro r slots off total evs en hall q hq
      simp only [mainLoop] at hq
      have hpass := runPass_fildes rfd wfd len env r P hPr hPw slots 0 off total 0 evs en hall
      split_ifs at hq with hoff hp hn0 hsf
      · exact hpass q (by simpa using hq)
      · exact ih _ _ _ _ _ _ hpass q hq
      · exact ih _ _ _ _ _ _ hpass q hq
      · exact hpass q (by simpa using hq)
      · exact hall q (by simpa using hq)

/-- Invariant of the main loop: the cursor never passes the end of the
target, the dispatch trace tracks the cursor, and when the loop exits
normally the cursor has reached `len`, every slot is well-formed, the bytes
of consumed completions plus the still-in-flight bytes equal `len`, and the
running total equals the sum of the reported completion counts. -/
theorem mainLoop_inv (rfd wfd C len : Nat) (env : Env) (hrw : rfd ≠ wfd) :
    ∀ (fuel r : Nat) (slots : List Slot) (off total : Nat) (evs : List Event) (en : Int),
      off ≤ len →
      (∀ sl ∈ slots, slotOk rfd wfd C len off sl) →
      TraceChunks C len (dispTrace evs) off →
      sumCompNb evs + pendingNb wfd slots = off →
      total = sumCompBcnt evs →
      (mainLoop rfd wfd len env fuel r slots off total evs en).off ≤ len ∧
      TraceChunks C len
        (dispTrace (mainLoop rfd wfd len env fuel r slots off total evs en).events)
        (mainLoop rfd wfd len env fuel r slots off total evs en).off ∧
      ((mainLoop rfd wfd len env fuel r slots off total evs en).err = none →
        (mainLoop rfd wfd len env fuel r slots off total evs en).off = len ∧
        (∀ sl ∈ (mainLoop rfd wfd len env fuel r slots off total evs en).slots,
          slotOk rfd wfd C len len sl) ∧
        sumCompNb (mainLoop rfd wfd len env fuel r slots off total evs en).events +
          pendingNb wfd (mainLoop rfd wfd len env fuel r slots off total evs en).slots = len ∧
        (mainLoop rfd wfd len env fuel r slots off total evs en).total =
          sumCompBcnt (mainLoop rfd wfd len env fuel r slots off total evs en).events) := by
  intro fuel
  induction fuel with
  | zero =>
      intro r slots off total evs en hle hok hch hsum htot
      simp only [mainLoop]
      split_ifs with hoff
      · exact ⟨hle, hch, fun hn => by simp at hn⟩
      · have heq : off = len := by omega
        subst heq
        exact ⟨hle, hch, fun _ => ⟨rfl, hok, hsum, htot⟩⟩
  | succ fuel ih =>
      intro r slots off total evs en hle hok hch hsum htot
      simp only [mainLoop]
      by_cases hoff : off < len
      · have hpinv := runPass_inv rfd wfd C len env r hrw slots 0 off total 0 evs en hoff hok hch
        generalize hpdef : runPass rfd wfd len env r 0 slots off total 0 evs en = p
        rw [hpdef] at hpinv
        obtain ⟨p1, p2, p3, p4⟩ := hpinv
        rw [if_pos hoff]
        split_ifs with hp hn0 hsf
        · exact ⟨p2, p3, fun hn => by simp at hn⟩
        · obtain ⟨ha, hb, hc⟩ := p4 hp
          have hsum' : sumCompNb p.events + pendingNb wfd p.slots = p.off := by omega
          have htot' : p.total = sumCompBcnt p.events := by omega
          exact ih (r + 1) p.slots p.off p.total p.events p.errno p2 ha p3 hsum' htot'
        · obtain ⟨ha, hb, hc⟩ := p4 hp
          have hsum' : sumCompNb p.events + pendingNb wfd p.slots = p.off := by omega
          have htot' : p.total = sumCompBcnt p.events := by omega
          exact ih (r + 1) p.slots p.off p.total p.events p.errno p2 ha p3 hsum' htot'
        · refine ⟨p2, p3, fun hn => ?_⟩
          have hn' : p.err = none := hn
          exact absurd hn' hp
      · rw [if_neg hoff]
        have heq : off = len := by omega
        subst heq
        exact ⟨hle, hch, fun _ => ⟨rfl, hok, hsum, htot⟩⟩

/-! ### What the drain loop does -/

theorem drainLoop_events (wfd : Nat) (env : Env) :
    ∀ (slots : List Slot) (i total : Nat) (evs : List Event) (en : Int),
      (∃ d, (drainLoop wfd env i slots total evs en).events = evs ++ d) ∧
      dispTrace (drainLoop wfd env i slots total evs en).events = dispTrace evs ∧
      (RefPre evs → RefPre (drainLoop wfd env i slots total evs en).events) := by
  intro slots
  induction slots with
  | nil =>
      intro i total evs en
      exact ⟨⟨[], by simp [drainLoop]⟩, by simp [drainLoop], fun hp => by simpa [drainLoop] using hp⟩
  | cons sl rest ih =>
      intro i total evs en
      simp only [drainLoop]
      split_ifs with h1 h2
      · obtain ⟨⟨d, hd⟩, hdt, hrp⟩ := ih (i + 1) total evs en
        exact ⟨⟨d, by simpa using hd⟩, by simpa using hdt, fun hp => by simpa using hrp hp⟩
      · refine ⟨⟨[Event.completeErr i], by simp⟩, by simp, fun hp => ?_⟩
        simpa using refPre_snoc hp _ (fun _ _ => by simp)
      · obtain ⟨⟨d, hd⟩, hdt, hrp⟩ := ih (i + 1) (total + (env.drainBcnt i).toNat)
          (evs ++ [Event.complete i (env.drainBcnt i).toNat sl.aio_nbytes]) en
        refine ⟨⟨[Event.complete i (env.drainBcnt i).toNat sl.aio_nbytes] ++ d, ?_⟩, ?_, fun hp => ?_⟩
        · simp only [← List.append_assoc]
          simpa using hd
        · rw [show (drainLoop wfd env (i + 1) rest (total + (env.drainBcnt i).toNat)
            (evs ++ [Event.complete i (env.drainBcnt i).toNat sl.aio_nbytes]) en).events =
            (drainLoop wfd env (i + 1) rest (total + (env.drainBcnt i).toNat)
            (evs ++ [Event.complete i (env.drainBcnt i).toNat sl.aio_nbytes]) en).events from rfl]
          simpa using hdt
        · simpa using hrp (refPre_snoc hp _ (fun _ _ => by simp))

theorem drainLoop_completeErr (wfd : Nat) (env : Env) :
    ∀ (slots : List Slot) (i total : Nat) (evs : List Event) (en : Int),
      (∀ j, Event.completeErr j ∉ evs) →
      ((∀ e, (drainLoop wfd env i slots total evs en).err = some e →
        e = RunErr.drainCompletionErr ∧
        ∃ es j, (drainLoop wfd env i slots total evs en).events =
          es ++ [Event.completeErr j]) ∧
      ((drainLoop wfd env i slots total evs en).err = none →
        ∀ j, Event.completeErr j ∉ (drainLoop wfd env i slots total evs en).events)) := by
  intro slots
  induction slots with
  | nil =>
      intro i total evs en hno
      exact ⟨fun e he => by simp [drainLoop] at he, fun _ => by simpa [drainLoop] using hno⟩
  | cons sl rest ih =>
      intro i total evs en hno
      simp only [drainLoop]
      split_ifs with h1 h2
      · obtain ⟨hc1, hc2⟩ := ih (i + 1) total evs en hno
        exact ⟨fun e he => by simpa using hc1 e (by simpa using he),
          fun hn => by simpa using hc2 (by simpa using hn)⟩
      · refine ⟨fun e he => ⟨?_, evs, i, by simp⟩, fun hn => by simp at hn⟩
        have he' : some RunErr.drainCompletionErr = some e := he
        simpa using he'.symm
      · have hno' : ∀ j, Event.completeErr j ∉
            evs ++ [Event.complete i (env.drainBcnt i).toNat sl.aio_nbytes] := by
          intro j
          simp [List.mem_append]
          exact hno j
        obtain ⟨hc1, hc2⟩ := ih (i + 1) (total + (env.drainBcnt i).toNat)
          (evs ++ [Event.complete i (env.drainBcnt i).toNat sl.aio_nbytes]) en hno'
        exact ⟨fun e he => by simpa using hc1 e (by simpa using he),
          fun hn => by simpa using hc2 (by simpa using hn)⟩

theorem drainLoop_fildes (wfd : Nat) (env : Env) (P : Nat → Prop) :
    ∀ (slots : List Slot) (i total : Nat) (evs : List Event) (en : Int),
      (∀ sl ∈ slots, P sl.aio_fildes) →
      ∀ sl ∈ (drainLoop wfd env i slots total evs en).slots, P sl.aio_fildes := by
  intro slots
  induction slots with
  | nil =>
      intro i total evs en _ q hq
      simp [drainLoop] at hq
  | cons sl rest ih =>
      intro i total evs en hall q hq
      have hrest : ∀ x ∈ rest, P x.aio_fildes :=
        fun x hx => hall x (List.mem_cons_of_mem _ hx)
      simp only [drainLoop] at hq
      split_ifs at hq with h1 h2
      · dsimp only at hq
        rcases List.mem_cons.1 hq with rfl | hq
        · exact hall _ (List.mem_cons_self _ _)
        · exact ih _ _ _ _ hrest q hq
      · dsimp only at hq
        rcases List.mem_cons.1 hq with rfl | hq
        · exact hall _ (List.mem_cons_self _ _)
        · exact hrest q hq
      · dsimp only at hq
        rcases List.mem_cons.1 hq with rfl | hq
        · exact hall sl (List.mem_cons_self _ _)
        · exact ih _ _ _ _ hrest q hq

/-- On a normal exit the drain loop has consumed exactly the in-flight
bytes of every slot still targeted at `wfd`, and its running total has
grown by the reported completion counts. -/
theorem drainLoop_inv (wfd : Nat) (env : Env) :
    ∀ (slots : List Slot) (i total : Nat) (evs : List Event) (en : Int),
      (drainLoop wfd env i slots total evs en).err = none →
      sumCompNb (drainLoop wfd env i slots total evs en).events =
        sumCompNb evs + pendingNb wfd slots ∧
      (drainLoop wfd env i slots total evs en).total + sumCompBcnt evs =
        total + sumCompBcnt (drainLoop wfd env i slots total evs en).events := by
  intro slots
  induction slots with
  | nil =>
      intro i total evs en _
      constructor
      · simp [drainLoop]
      · simp [drainLoop]
  | cons sl rest ih =>
      intro i total evs en hn
      simp only [drainLoop] at hn ⊢
      split_ifs at hn ⊢ with h1 h2
      · have hn' : (drainLoop wfd env (i + 1) rest total evs en).err = none := hn
        obtain ⟨e1, e2⟩ := ih (i + 1) total evs en hn'
        have hpe : pendingNb wfd (sl :: rest) = pendingNb wfd rest := pendingNb_cons_ne h1 rest
        refine ⟨?_, ?_⟩
        · show sumCompNb (drainLoop wfd env (i + 1) rest total evs en).events =
            sumCompNb evs + pendingNb wfd (sl :: rest)
          omega
        · show (drainLoop wfd env (i + 1) rest total evs en).total + sumCompBcnt evs =
            total + sumCompBcnt (drainLoop wfd env (i + 1) rest total evs en).events
          omega
      · have h1' : sl.aio_fildes = wfd := not_not.1 h1
        have hn' : (drainLoop wfd env (i + 1) rest (total + (env.drainBcnt i).toNat)
            (evs ++ [Event.complete i (env.drainBcnt i).toNat sl.aio_nbytes]) en).err =
            none := hn
        obtain ⟨e1, e2⟩ := ih (i + 1) (total + (env.drainBcnt i).toNat)
          (evs ++ [Event.complete i (env.drainBcnt i).toNat sl.aio_nbytes]) en hn'
        have hpe : pendingNb wfd (sl :: rest) = sl.aio_nbytes + pendingNb wfd rest :=
          pendingNb_cons_eq h1' rest
        simp only [sumCompNb_append, sumCompNb_complete] at e1
        simp only [sumCompBcnt_append, sumCompBcnt_complete] at e2
        refine ⟨?_, ?_⟩
        · show sumCompNb (drainLoop wfd env (i + 1) rest (total + (env.drainBcnt i).toNat)
            (evs ++ [Event.complete i (env.drainBcnt i).toNat sl.aio_nbytes]) en).events =
            sumCompNb evs + pendingNb wfd (sl :: rest)
          omega
        · show (drainLoop wfd env (i + 1) rest (total + (env.drainBcnt i).toNat)
              (evs ++ [Event.complete i (env.drainBcnt i).toNat sl.aio_nbytes]) en).total +
              sumCompBcnt evs =
            total + sumCompBcnt (drainLoop wfd env (i + 1) rest
              (total + (env.drainBcnt i).toNat)
              (evs ++ [Event.complete i (env.drainBcnt i).toNat sl.aio_nbytes]) en).events
          omega

/-! ### Facts about the whole pipeline `shred_from` -/

theorem initPool_slotOk {rfd wfd C len : Nat} (hrw : rfd ≠ wfd) (N : Nat) :
    ∀ sl ∈ initPool rfd C N, slotOk rfd wfd C len 0 sl := by
  intro sl hsl
  have hsl' := List.eq_of_mem_replicate hsl
  subst hsl'
  exact ⟨Or.inl rfl, fun _ => ⟨rfl, rfl⟩, fun hw => absurd hw hrw⟩

theorem initPool_pendingNb {rfd wfd C : Nat} (hrw : rfd ≠ wfd) (N : Nat) :
    pendingNb wfd (initPool rfd C N) = 0 := by
  simp [pendingNb, initPool, List.map_replicate, bl_init, hrw]

/-- A successful `shred_from` run returns exactly the sum of the byte
counts reported by the completions it consumed, and the completions it
consumed requested exactly `len` bytes in total. -/
theorem shred_from_ok_sums (rfd wfd C N len : Nat) (env : Env) (fuel : Nat)
    (hrw : rfd ≠ wfd) :
    ∀ t, (shred_from rfd wfd (initPool rfd C N) len env fuel).result = Except.ok t →
      t = sumCompBcnt (shred_from rfd wfd (initPool rfd C N) len env fuel).events ∧
      sumCompNb (shred_from rfd wfd (initPool rfd C N) len env fuel).events = len := by
  intro t hok
  obtain ⟨m1, m2, m3⟩ := mainLoop_inv rfd wfd C len env hrw fuel 0 (initPool rfd C N) 0 0 [] 0
    (Nat.zero_le _) (initPool_slotOk hrw N) TraceChunks.nil
    (by simpa using initPool_pendingNb hrw N) rfl
  simp only [shred_from] at hok ⊢
  split_ifs at hok ⊢ with hme hde hfs
  all_goals try simp at hok
  all_goals try exact absurd hok (by simp)
  obtain ⟨mo, msl, msum, mtot⟩ := m3 hme
  obtain ⟨e1, e2⟩ := drainLoop_inv wfd env
    (mainLoop rfd wfd len env fuel 0 (initPool rfd C N) 0 0 [] 0).slots 0
    (mainLoop rfd wfd len env fuel 0 (initPool rfd C N) 0 0 [] 0).total
    (mainLoop rfd wfd len env fuel 0 (initPool rfd C N) 0 0 [] 0).events
    (mainLoop rfd wfd len env fuel 0 (initPool rfd C N) 0 0 [] 0).errno hde
  rw [msum] at e1
  constructor
  · show t = sumCompBcnt (drainLoop wfd env 0
      (mainLoop rfd wfd len env fuel 0 (initPool rfd C N) 0 0 [] 0).slots
      (mainLoop rfd wfd len env fuel 0 (initPool rfd C N) 0 0 [] 0).total
      (mainLoop rfd wfd len env fuel 0 (initPool rfd C N) 0 0 [] 0).events
      (mainLoop rfd wfd len env fuel 0 (initPool rfd C N) 0 0 [] 0).errno).events
    omega
  · show sumCompNb (drainLoop wfd env 0
      (mainLoop rfd wfd len env fuel 0 (initPool rfd C N) 0 0 [] 0).slots
      (mainLoop rfd wfd len env fuel 0 (initPool rfd C N) 0 0 [] 0).total
      (mainLoop rfd wfd len env fuel 0 (initPool rfd C N) 0 0 [] 0).events
      (mainLoop rfd wfd len env fuel 0 (initPool rfd C N) 0 0 [] 0).errno).events = len
    exact e1

/-- The only failures a pass itself can produce. -/
theorem runPass_err_cases (rfd wfd len : Nat) (env : Env) (r : Nat) :
    ∀ (slots : List Slot) (i off total nread : Nat) (evs : List Event) (en : Int) (e : RunErr),
      (runPass rfd wfd len env r i slots off total nread evs en).err = some e →
      e = RunErr.writeDispatchErr ∨ e = RunErr.writeCompletionErr ∨ e = RunErr.readErr := by
  intro slots
  induction slots with
  | nil =>
      intro i off total nread evs en e h
      simp [runPass] at h
  | cons sl rest ih =>
      intro i off total nread evs en e h
      simp only [runPass] at h
      split_ifs at h with h1 h2 h3 h4 h5 h6 h7
      all_goals first
        | exact ih _ _ _ _ _ _ _ h
        | (simp at h; rcases h with rfl | rfl | rfl <;> simp)
        | (simp at h; subst h; simp)

/-- The only failures the main loop can produce. -/
theorem mainLoop_err_cases (rfd wfd len : Nat) (env : Env) :
    ∀ (fuel r : Nat) (slots : List Slot) (off total : Nat) (evs : List Event) (en : Int)
      (e : RunErr),
      (mainLoop rfd wfd len env fuel r slots off total evs en).err = some e →
      e = RunErr.fuelOut ∨ e = RunErr.writeDispatchErr ∨ e = RunErr.writeCompletionErr ∨
        e = RunErr.readErr ∨ e = RunErr.suspendErr := by
  intro fuel
  induction fuel with
  | zero =>
      intro r slots off total evs en e h
      simp only [mainLoop] at h
      split_ifs at h <;> simp at h
      subst h
      simp
  | succ fuel ih =>
      intro r slots off total evs en e h
      simp only [mainLoop] at h
      split_ifs at h with hoff hp hn0 hsf
      all_goals first
        | exact ih _ _ _ _ _ _ _ h
        | (simp at h; subst h; simp)
        | (have h' := runPass_err_cases rfd wfd len env r slots 0 off total 0 evs en e h
           rcases h' with rfl | rfl | rfl <;> simp)
        | simp at h

/-- The refill discipline holds for the whole pipeline's event trace. -/
theorem shred_from_refPre (rfd wfd : Nat) (slots : List Slot) (len : Nat) (env : Env)
    (fuel : Nat) :
    RefPre (shred_from rfd wfd slots len env fuel).events := by
  have hm := mainLoop_refPre rfd wfd len env fuel 0 slots 0 0 [] 0 refPre_nil
  obtain ⟨-, -, hdr⟩ := drainLoop_events wfd env
    (mainLoop rfd wfd len env fuel 0 slots 0 0 [] 0).slots 0
    (mainLoop rfd wfd len env fuel 0 slots 0 0 [] 0).total
    (mainLoop rfd wfd len env fuel 0 slots 0 0 [] 0).events
    (mainLoop rfd wfd len env fuel 0 slots 0 0 [] 0).errno
  have hd := hdr hm
  simp only [shred_from]
  split_ifs
  all_goals first
    | exact hd
    | exact hm

/-- A completion-error failure of the pipeline leaves the observed
`completeErr` as the very last event: nothing is dispatched, completed or
refilled after it. -/
theorem shred_from_completeErr (rfd wfd : Nat) (slots : List Slot) (len : Nat) (env : Env)
    (fuel : Nat) :
    ((shred_from rfd wfd slots len env fuel).result =
        Except.error RunErr.writeCompletionErr ∨
      (shred_from rfd wfd slots len env fuel).result =
        Except.error RunErr.drainCompletionErr) →
    ∃ es j, (shred_from rfd wfd slots len env fuel).events = es ++ [Event.completeErr j] := by
  intro hres
  obtain ⟨mc1, mc2⟩ := mainLoop_completeErr rfd wfd len env fuel 0 slots 0 0 [] 0 (by simp)
  simp only [shred_from] at hres ⊢
  split_ifs at hres ⊢ with hme hde hfs
  all_goals first
    | ((rcases hres with h | h <;> simp at h); done)
    | ( -- the drain loop failed
       revert hde
       intro hde
       have hnom : ∀ j, Event.completeErr j ∉
           (mainLoop rfd wfd len env fuel 0 slots 0 0 [] 0).events :=
         mc2 (by rw [hme]; simp)
       obtain ⟨dc1, dc2⟩ := drainLoop_completeErr wfd env
         (mainLoop rfd wfd len env fuel 0 slots 0 0 [] 0).slots 0
         (mainLoop rfd wfd len env fuel 0 slots 0 0 [] 0).total
         (mainLoop rfd wfd len env fuel 0 slots 0 0 [] 0).events
         (mainLoop rfd wfd len env fuel 0 slots 0 0 [] 0).errno hnom
       obtain ⟨e, hse⟩ := Option.ne_none_iff_exists'.1 hde
       obtain ⟨-, es, j, hes⟩ := dc1 e hse
       exact ⟨es, j, hes⟩)
    | ( -- the main loop failed
       obtain ⟨e, hse⟩ := Option.ne_none_iff_exists'.1 hme
       have hecases := mainLoop_err_cases rfd wfd len env fuel 0 slots 0 0 [] 0 e hse
       have hewce : e = RunErr.writeCompletionErr := by
         rcases hres with h | h
         · simp only [hse] at h
           simp at h
           first
             | exact h
             | exact h.symm
         · simp only [hse] at h
           simp at h
           rcases hecases with rfl | rfl | rfl | rfl | rfl <;> simp at h
       subst hewce
       obtain ⟨es, j, hes⟩ := mc1 hse
       exact ⟨es, j, hes⟩)

/-- A `readErr` failure of the pipeline can only come from a negative
random-source read result. -/
theorem shred_from_readErr (rfd wfd : Nat) (slots : List Slot) (len : Nat) (env : Env)
    (fuel : Nat) :
    (shred_from rfd wfd slots len env fuel).result = Except.error RunErr.readErr →
    ∃ r' i', env.readRes r' i' < 0 := by
  intro hres
  simp only [shred_from] at hres
  split_ifs at hres with hme hde hfs
  all_goals first
    | (simp at hres; done)
    | ( -- the drain loop failed: its only failure is a drain completion error
       revert hde
       intro hde
       obtain ⟨dc1, dc2⟩ := drainLoop_completeErr wfd env
         (mainLoop rfd wfd len env fuel 0 slots 0 0 [] 0).slots 0
         (mainLoop rfd wfd len env fuel 0 slots 0 0 [] 0).total
         (mainLoop rfd wfd len env fuel 0 slots 0 0 [] 0).events
         (mainLoop rfd wfd len env fuel 0 slots 0 0 [] 0).errno
         ((mainLoop_completeErr rfd wfd len env fuel 0 slots 0 0 [] 0 (by simp)).2
           (by rw [hme]; simp))
       obtain ⟨e, hse⟩ := Option.ne_none_iff_exists'.1 hde
       obtain ⟨he, -⟩ := dc1 e hse
       subst he
       simp only [hse] at hres
       exact absurd hres (by simp))
    | ( -- the main loop failed
       obtain ⟨e, hse⟩ := Option.ne_none_iff_exists'.1 hme
       have heq : e = RunErr.readErr := by
         simp only [hse] at hres
         simp at hres
         first
           | exact hres
           | exact hres.symm
       subst heq
       exact mainLoop_readErr rfd wfd len env fuel 0 slots 0 0 [] 0 hse)

/-- Every slot descriptor stays in `{rfd, wfd}` across the pipeline. -/
theorem shred_from_fildes (rfd wfd : Nat) (slots : List Slot) (len : Nat) (env : Env)
    (fuel : Nat) (hall : ∀ sl ∈ slots, sl.aio_fildes = rfd ∨ sl.aio_fildes = wfd) :
    ∀ sl ∈ (shred_from rfd wfd slots len env fuel).slots,
      sl.aio_fildes = rfd ∨ sl.aio_fildes = wfd := by
  have hm := mainLoop_fildes rfd wfd len env (fun x => x = rfd ∨ x = wfd)
    (Or.inl rfl) (Or.inr rfl) fuel 0 slots 0 0 [] 0 hall
  have hd := drainLoop_fildes wfd env (fun x => x = rfd ∨ x = wfd)
    (mainLoop rfd wfd len env fuel 0 slots 0 0 [] 0).slots 0
    (mainLoop rfd wfd len env fuel 0 slots 0 0 [] 0).total
    (mainLoop rfd wfd len env fuel 0 slots 0 0 [] 0).events
    (mainLoop rfd wfd len env fuel 0 slots 0 0 [] 0).errno hm
  simp only [shred_from]
  split_ifs
  all_goals first
    | exact hd
    | exact hm

/-- The `bl_list` pointer array is released on every exit of
`shred_from`. -/
theorem shred_from_blListFreed (rfd wfd : Nat) (slots : List Slot) (len : Nat) (env : Env)
    (fuel : Nat) : (shred_from rfd wfd slots len env fuel).blListFreed = true := by
  simp only [shred_from]
  split_ifs <;> rfl

/-- The drain loop skips a pool in which no slot targets `wfd`. -/
theorem drainLoop_skip (wfd : Nat) (env : Env) :
    ∀ (slots : List Slot) (i total : Nat) (evs : List Event) (en : Int),
      (∀ sl ∈ slots, sl.aio_fildes ≠ wfd) →
      drainLoop wfd env i slots total evs en =
        { slots := slots, total := total, events := evs, errno := en, err := none } := by
  intro slots
  induction slots with
  | nil =>
      intro i total evs en _
      simp [drainLoop]
  | cons sl rest ih =>
      intro i total evs en hall
      have hh := hall sl (List.mem_cons_self _ _)
      simp only [drainLoop]
      rw [if_pos hh, ih (i + 1) total evs en (fun x hx => hall x (List.mem_cons_of_mem _ hx))]

/-- With a target of length zero, the pipeline issues no write at all and,
provided the final flush succeeds, returns a confirmed total of zero. -/
theorem shred_from_len_zero (rfd wfd C N : Nat) (env : Env) (fuel : Nat)
    (hrw : rfd ≠ wfd) (hfs : env.fsyncRet = 0) :
    (shred_from rfd wfd (initPool rfd C N) 0 env fuel).result = Except.ok 0 ∧
    (shred_from rfd wfd (initPool rfd C N) 0 env fuel).events = [] := by
  have hmain : mainLoop rfd wfd 0 env fuel 0 (initPool rfd C N) 0 0 [] 0 =
      { slots := initPool rfd C N, off := 0, total := 0, events := [], errno := 0,
        err := none } := by
    cases fuel <;> simp [mainLoop]
  have hdrain := drainLoop_skip wfd env (initPool rfd C N) 0 0 [] 0
    (fun sl hsl => by
      have := List.eq_of_mem_replicate hsl
      subst this
      exact hrw)
  simp only [shred_from, hmain]
  simp [hdrain, hfs]

/-! ### Concrete environments used to exercise the pipeline -/

/-- A benign environment: every write completes instantly reporting zero
bytes, reads succeed, nothing fails. -/
def envBase : Env :=
  { inProgress := fun _ _ => false
    bcnt := fun _ _ => 0
    writeFail := fun _ _ => false
    readRes := fun _ _ => 0
    suspendFail := fun _ => false
    drainBcnt := fun _ => 0
    fsyncRet := 0
    fsyncErrno := 0
    werrno := fun _ _ => 0
    cerrno := fun _ _ => 0
    rerrno := fun _ _ => 0
    serrno := fun _ => 0
    derrno := fun _ => 0 }

/-- The spec scenario N = 2, C = 4, L = 10: every completion reports its
full requested length (4 in the main loop, 2 for the final drain). -/
def envScenario : Env :=
  { envBase with bcnt := fun _ _ => 4, readRes := fun _ _ => 4, drainBcnt := fun _ => 2 }

/-- Same scenario but every random-source read returns zero bytes. -/
def envShortReads : Env := { envScenario with readRes := fun _ _ => 0 }

/-- Scenario in which the first completion checked in round 1 reports an
error. -/
def envCompErr : Env := { envScenario with bcnt := fun r _ => if r = 1 then -1 else 4 }

/-- Environment in which only the final `fsync` fails: it returns `-1` and
the C library sets `errno` to 5 (`EIO`). -/
def envFsyncFail : Env := { envBase with fsyncRet := -1, fsyncErrno := 5 }

/-- Environment in which the drain-phase completion reports an error with
`errno` 5. -/
def envDrainErr : Env := { envBase with drainBcnt := fun _ => -1, derrno := fun _ => 5 }

/-- Pool of 8 slots, capacity 4, target of 2 bytes: exactly one write. -/
def envTiny : Env := { envBase with drainBcnt := fun _ => 2 }

/-- Caller environment whose pipeline hits the drain-phase error. -/
def senvDrainErr : ShredEnv :=
  { openRandFail := false, openErrno := 0, primeRes := fun _ => 1, primeErrno := 0,
    sizeErr := 0, totalSize := 4, fenv := envDrainErr }

/-- Ordered disjoint nonempty ranges never repeat. -/
theorem nodup_of_pairwise_disjoint {t : List (Nat × Nat)}
    (hpos : ∀ p ∈ t, 0 < p.2) (hpw : t.Pairwise (fun p q => p.1 + p.2 ≤ q.1)) :
    t.Nodup := by
  induction t with
  | nil => exact List.nodup_nil
  | cons p rest ih =>
      rcases hpw with _ | ⟨hrel, hpw'⟩
      refine List.Nodup.cons ?_ (ih (fun q hq => hpos q (List.mem_cons_of_mem _ hq)) hpw')
      intro hmem
      have h1 := hrel p hmem
      have h2 := hpos p (List.mem_cons_self _ _)
      omega

/-! ### The claims -/

/-- C1: for every successful run over a target of length `len`, the value
returned by `shred_from` equals the sum of the byte counts reported by the
individual completed asynchronous writes (which are accumulated only in
the completion branch of the main loop and in the drain phase), and when
every completed write reports its full requested length this sum equals
`len` exactly. -/
theorem C1_total_eq_len (rfd wfd C N len : Nat) (env : Env) (fuel t : Nat)
    (hrw : rfd ≠ wfd)
    (hok : (shred_from rfd wfd (initPool rfd C N) len env fuel).result = Except.ok t) :
    t = sumCompBcnt (shred_from rfd wfd (initPool rfd C N) len env fuel).events ∧
    ((∀ i b nb, Event.complete i b nb ∈
        (shred_from rfd wfd (initPool rfd C N) len env fuel).events → b = nb) →
      t = len) := by
  obtain ⟨h1, h2⟩ := shred_from_ok_sums rfd wfd C N len env fuel hrw t hok
  refine ⟨h1, fun hfull => ?_⟩
  rw [h1, sumCompBcnt_eq_sumCompNb _ hfull, h2]

theorem C1_total_eq_len_witness :
    (0 : Nat) ≠ 1 ∧
    (shred_from 0 1 (initPool 0 4 2) 10 envScenario 10).result = Except.ok 10 ∧
    (10 = sumCompBcnt (shred_from 0 1 (initPool 0 4 2) 10 envScenario 10).events ∧
      ((∀ i b nb, Event.complete i b nb ∈
          (shred_from 0 1 (initPool 0 4 2) 10 envScenario 10).events → b = nb) →
        10 = 10)) :=
  ⟨by decide, by decide,
    C1_total_eq_len 0 1 4 2 10 envScenario 10 10 (by decide) (by decide)⟩

/-- C2: the byte ranges assigned by the dispatch loop are consecutive
starting at offset 0, nonempty, inside `[0, len)`, pairwise disjoint in
increasing order and never repeated; and when the dispatch loop completes,
their lengths sum to exactly `len`. -/
theorem C2_dispatch_partition (rfd wfd C N len : Nat) (env : Env) (fuel : Nat)
    (hrw : rfd ≠ wfd) (hC : 1 ≤ C) (hN : 1 ≤ N) :
    (consecutiveFrom 0
      (dispTrace (mainLoop rfd wfd len env fuel 0 (initPool rfd C N) 0 0 [] 0).events) ∧
     (∀ p ∈ dispTrace (mainLoop rfd wfd len env fuel 0 (initPool rfd C N) 0 0 [] 0).events,
       0 < p.2 ∧ p.1 + p.2 ≤ len) ∧
     (dispTrace (mainLoop rfd wfd len env fuel 0 (initPool rfd C N) 0 0 [] 0).events).Pairwise
       (fun p q => p.1 + p.2 ≤ q.1) ∧
     (dispTrace (mainLoop rfd wfd len env fuel 0 (initPool rfd C N) 0 0 [] 0).events).Nodup) ∧
    ((mainLoop rfd wfd len env fuel 0 (initPool rfd C N) 0 0 [] 0).err = none →
      ((dispTrace (mainLoop rfd wfd len env fuel 0
          (initPool rfd C N) 0 0 [] 0).events).map Prod.snd).sum = len) := by
  obtain ⟨m1, m2, m3⟩ := mainLoop_inv rfd wfd C len env hrw fuel 0 (initPool rfd C N) 0 0 [] 0
    (Nat.zero_le _) (initPool_slotOk hrw N) TraceChunks.nil
    (by simpa using initPool_pendingNb hrw N) rfl
  obtain ⟨hcons, hsum⟩ := traceChunks_consecutive m2
  have hshape := traceChunks_shape hC m2
  have hpos : ∀ p ∈ dispTrace (mainLoop rfd wfd len env fuel 0
      (initPool rfd C N) 0 0 [] 0).events, 0 < p.2 :=
    fun p hp => (hshape p hp).2.1
  obtain ⟨hpw, -⟩ := consecutiveFrom_pairwise 0 hcons hpos
  refine ⟨⟨hcons, fun p hp => ⟨(hshape p hp).2.1, (hshape p hp).2.2⟩, hpw,
    nodup_of_pairwise_disjoint hpos hpw⟩, fun hn => ?_⟩
  obtain ⟨mo, -, -, -⟩ := m3 hn
  rw [hsum, mo]

theorem C2_dispatch_partition_witness :
    (0 : Nat) ≠ 1 ∧ 1 ≤ 4 ∧ 1 ≤ 2 ∧
    ((consecutiveFrom 0
      (dispTrace (mainLoop 0 1 10 envScenario 10 0 (initPool 0 4 2) 0 0 [] 0).events) ∧
     (∀ p ∈ dispTrace (mainLoop 0 1 10 envScenario 10 0 (initPool 0 4 2) 0 0 [] 0).events,
       0 < p.2 ∧ p.1 + p.2 ≤ 10) ∧
     (dispTrace (mainLoop 0 1 10 envScenario 10 0 (initPool 0 4 2) 0 0 [] 0).events).Pairwise
       (fun p q => p.1 + p.2 ≤ q.1) ∧
     (dispTrace (mainLoop 0 1 10 envScenario 10 0 (initPool 0 4 2) 0 0 [] 0).events).Nodup) ∧
    ((mainLoop 0 1 10 envScenario 10 0 (initPool 0 4 2) 0 0 [] 0).err = none →
      ((dispTrace (mainLoop 0 1 10 envScenario 10 0
          (initPool 0 4 2) 0 0 [] 0).events).map Prod.snd).sum = 10)) :=
  ⟨by decide, by decide, by decide,
    C2_dispatch_partition 0 1 4 2 10 envScenario 10 (by decide) (by decide) (by decide)⟩

/-- C3: every dispatched range has length `min C (len - cursor)`; on a
completed dispatch loop the final range has length `len mod C` when `C`
does not divide `len` (and `C` otherwise); and in the scenario N = 2,
C = 4, L = 10 the dispatch sequence of every completed run is exactly
`[0,4), [4,8), [8,10)`, three ranges with lengths summing to 10. -/
theorem C3_dispatch_lengths (rfd wfd C N len : Nat) (env : Env) (fuel : Nat)
    (hrw : rfd ≠ wfd) (hC : 1 ≤ C) :
    (∀ p ∈ dispTrace (mainLoop rfd wfd len env fuel 0 (initPool rfd C N) 0 0 [] 0).events,
      p.2 = min C (len - p.1)) ∧
    ((mainLoop rfd wfd len env fuel 0 (initPool rfd C N) 0 0 [] 0).err = none → 0 < len →
      ∃ t' o, dispTrace (mainLoop rfd wfd len env fuel 0
          (initPool rfd C N) 0 0 [] 0).events = t' ++ [(o, min C (len - o))] ∧
        min C (len - o) = (if len % C = 0 then C else len % C)) ∧
    (∀ (env' : Env) (fuel' : Nat),
      (mainLoop 0 1 10 env' fuel' 0 (initPool 0 4 2) 0 0 [] 0).err = none →
      dispTrace (mainLoop 0 1 10 env' fuel' 0 (initPool 0 4 2) 0 0 [] 0).events =
        [(0, 4), (4, 4), (8, 2)]) := by
  obtain ⟨m1, m2, m3⟩ := mainLoop_inv rfd wfd C len env hrw fuel 0 (initPool rfd C N) 0 0 [] 0
    (Nat.zero_le _) (initPool_slotOk hrw N) TraceChunks.nil
    (by simpa using initPool_pendingNb hrw N) rfl
  refine ⟨fun p hp => (traceChunks_shape hC m2 p hp).1, fun hn hpos => ?_, ?_⟩
  · obtain ⟨mo, -, -, -⟩ := m3 hn
    rw [mo] at m2
    exact traceChunks_last m2 hpos
  · intro env' fuel' hn'
    have hrw' : (0 : Nat) ≠ 1 := by decide
    obtain ⟨n1, n2, n3⟩ := mainLoop_inv 0 1 4 10 env' hrw' fuel' 0 (initPool 0 4 2) 0 0 [] 0
      (Nat.zero_le _) (initPool_slotOk hrw' 2) TraceChunks.nil
      (by simpa using initPool_pendingNb hrw' 2) rfl
    obtain ⟨no, -, -, -⟩ := n3 hn'
    rw [no] at n2
    have t0 : TraceChunks 4 10 [] 0 := TraceChunks.nil
    have t1 := t0.snoc (show (0 : Nat) < 10 by decide)
    have t1' : TraceChunks 4 10 [(0, 4)] 4 := by simpa using t1
    have t2 := t1'.snoc (show (4 : Nat) < 10 by decide)
    have t2' : TraceChunks 4 10 [(0, 4), (4, 4)] 8 := by simpa using t2
    have t3 := t2'.snoc (show (8 : Nat) < 10 by decide)
    have t3' : TraceChunks 4 10 [(0, 4), (4, 4), (8, 2)] 10 := by simpa using t3
    exact traceChunks_unique (by decide) n2 t3'

theorem C3_dispatch_lengths_witness :
    (0 : Nat) ≠ 1 ∧ 1 ≤ 4 ∧
    ((∀ p ∈ dispTrace (mainLoop 0 1 10 envScenario 10 0 (initPool 0 4 2) 0 0 [] 0).events,
      p.2 = min 4 (10 - p.1)) ∧
    ((mainLoop 0 1 10 envScenario 10 0 (initPool 0 4 2) 0 0 [] 0).err = none → 0 < 10 →
      ∃ t' o, dispTrace (mainLoop 0 1 10 envScenario 10 0
          (initPool 0 4 2) 0 0 [] 0).events = t' ++ [(o, min 4 (10 - o))] ∧
        min 4 (10 - o) = (if 10 % 4 = 0 then 4 else 10 % 4)) ∧
    (∀ (env' : Env) (fuel' : Nat),
      (mainLoop 0 1 10 env' fuel' 0 (initPool 0 4 2) 0 0 [] 0).err = none →
      dispTrace (mainLoop 0 1 10 env' fuel' 0 (initPool 0 4 2) 0 0 [] 0).events =
        [(0, 4), (4, 4), (8, 2)])) :=
  ⟨by decide, by decide, C3_dispatch_lengths 0 1 4 2 10 envScenario 10 (by decide) (by decide)⟩

/-- C4: if any dispatched write reports an error at completion, whether in
the main-loop completion sweep or in the drain phase, the whole run fails
and the observed `completeErr` is the final event of the run: no byte
range is dispatched (and nothing else happens) after the error is
observed. -/
theorem C4_completion_error_aborts (rfd wfd : Nat) (slots : List Slot) (len : Nat)
    (env : Env) (fuel : Nat)
    (h : (shred_from rfd wfd slots len env fuel).result =
          Except.error RunErr.writeCompletionErr ∨
        (shred_from rfd wfd slots len env fuel).result =
          Except.error RunErr.drainCompletionErr) :
    (∃ e, (shred_from rfd wfd slots len env fuel).result = Except.error e) ∧
    ∃ es j, (shred_from rfd wfd slots len env fuel).events =
      es ++ [Event.completeErr j] := by
  refine ⟨?_, shred_from_completeErr rfd wfd slots len env fuel h⟩
  rcases h with h | h
  · exact ⟨_, h⟩
  · exact ⟨_, h⟩

theorem C4_completion_error_aborts_witness :
    ((shred_from 0 1 (initPool 0 4 2) 10 envCompErr 10).result =
        Except.error RunErr.writeCompletionErr ∨
      (shred_from 0 1 (initPool 0 4 2) 10 envCompErr 10).result =
        Except.error RunErr.drainCompletionErr) ∧
    ((∃ e, (shred_from 0 1 (initPool 0 4 2) 10 envCompErr 10).result = Except.error e) ∧
    ∃ es j, (shred_from 0 1 (initPool 0 4 2) 10 envCompErr 10).events =
      es ++ [Event.completeErr j]) :=
  ⟨Or.inl (by decide),
    C4_completion_error_aborts 0 1 (initPool 0 4 2) 10 envCompErr 10 (Or.inl (by decide))⟩

/-- C5: at no point of any run is a slot's buffer refilled from the random
source while the asynchronous write using that buffer is still
outstanding: at the instant of every `refill` of slot `i`, the event
history shows no write on slot `i` dispatched but not yet consumed. -/
theorem C5_no_refill_while_pending (rfd wfd : Nat) (slots : List Slot) (len : Nat)
    (env : Env) (fuel : Nat) :
    ∀ (es : List Event) (i : Nat) (res : Int) (tl : List Event),
      (shred_from rfd wfd slots len env fuel).events = es ++ Event.refill i res :: tl →
      pendingAfter es i = false := by
  intro es i res tl hdec
  obtain ⟨es', b, nb, rfl⟩ := shred_from_refPre rfd wfd slots len env fuel es i res tl hdec
  exact pendingAfter_snoc_complete es' i b nb

theorem C5_no_refill_while_pending_witness :
    (shred_from 0 1 (initPool 0 4 2) 10 envScenario 10).events =
      [Event.dispatch 0 0 4, Event.dispatch 1 4 4, Event.complete 0 4 4] ++
        Event.refill 0 4 :: [Event.complete 1 4 4, Event.refill 1 4,
          Event.dispatch 0 8 2, Event.complete 0 2 2] ∧
    pendingAfter [Event.dispatch 0 0 4, Event.dispatch 1 4 4, Event.complete 0 4 4] 0 =
      false :=
  ⟨by decide,
    C5_no_refill_while_pending 0 1 (initPool 0 4 2) 10 envScenario 10
      [Event.dispatch 0 0 4, Event.dispatch 1 4 4, Event.complete 0 4 4] 0 4
      [Event.complete 1 4 4, Event.refill 1 4, Event.dispatch 0 8 2,
        Event.complete 0 2 2] (by decide)⟩

/-- C6: when the final flush fails (`fsync` returns `-1` after the C
library set `errno` to the cause, here 5 = `EIO`), the run does fail with
the flush-error exit, but the `errno` the caller sees is `-1` — the code
at src/ashred.c lines 223-227 executes `errno = err` where `err` is
`fsync`'s return value, so the underlying system error cause is lost,
contradicting the claim that the failure carries the cause. -/
theorem C6_flush_error_loses_cause :
    (shred_from 0 1 (initPool 0 4 2) 0 envFsyncFail 1).result =
      Except.error RunErr.flushErr ∧
    envFsyncFail.fsyncErrno = 5 ∧
    (shred_from 0 1 (initPool 0 4 2) 0 envFsyncFail 1).errno = -1 ∧
    (shred_from 0 1 (initPool 0 4 2) 0 envFsyncFail 1).errno ≠ envFsyncFail.fsyncErrno :=
  ⟨by decide, rfl, by decide, by decide⟩

/-- C7 counterexample: with a drain-phase completion error, the run
returns the failure (`shred` exits through `return errno` with errno 5)
while the slot buffers are still allocated and the random-source
descriptor is still open — the source releases them only on the success
path (src/ashred.c lines 111-114), so the claim that every error path
releases them is false. -/
theorem C7_counterexample_leak :
    (shred 0 1 senvDrainErr 2).res = ShredRes.fromFail 5 ∧
    (shred 0 1 senvDrainErr 2).buffersFreed = false ∧
    (shred 0 1 senvDrainErr 2).randClosed = false ∧
    ¬((shred 0 1 senvDrainErr 2).buffersFreed = true ∧
      (shred 0 1 senvDrainErr 2).randClosed = true) :=
  ⟨by decide, by decide, by decide, by decide⟩

/-- C7 amended: on every failure exit of `shred_from` the `bl_list`
pointer array has been freed, but the slot buffers and the random-source
descriptor remain unreleased whenever `shred` returns a pipeline failure;
they are released exactly on the success path. -/
theorem C7_amended_release (rfd wfd : Nat) (senv : ShredEnv) (fuel : Nat) :
    (∀ (slots : List Slot) (len : Nat) (e : RunErr),
      (shred_from rfd wfd slots len senv.fenv fuel).result = Except.error e →
      (shred_from rfd wfd slots len senv.fenv fuel).blListFreed = true) ∧
    (∀ e, (shred rfd wfd senv fuel).res = ShredRes.fromFail e →
      (shred rfd wfd senv fuel).buffersFreed = false ∧
      (shred rfd wfd senv fuel).randClosed = false) ∧
    (∀ n, (shred rfd wfd senv fuel).res = ShredRes.ok n →
      (shred rfd wfd senv fuel).buffersFreed = true ∧
      (shred rfd wfd senv fuel).randClosed = true) := by
  refine ⟨fun slots len e _ => shred_from_blListFreed rfd wfd slots len senv.fenv fuel,
    ?_, ?_⟩
  · intro e hres
    simp only [shred] at hres ⊢
    split_ifs at hres ⊢ with h1 h2 h3
    all_goals first
      | (simp at hres; done)
      | (revert hres
         rcases hor : (shred_from rfd wfd (initPool rfd buf_size blcnt)
            senv.totalSize senv.fenv fuel).result with e' | n'
         <;> intro hres
         <;> simp at hres ⊢)
  · intro n hres
    simp only [shred] at hres ⊢
    split_ifs at hres ⊢ with h1 h2 h3
    all_goals first
      | (simp at hres; done)
      | (revert hres
         rcases hor : (shred_from rfd wfd (initPool rfd buf_size blcnt)
            senv.totalSize senv.fenv fuel).result with e' | n'
         <;> intro hres
         <;> simp at hres ⊢)

theorem C7_amended_release_witness :
    (shred 0 1 senvDrainErr 2).res = ShredRes.fromFail 5 ∧
    ((shred 0 1 senvDrainErr 2).buffersFreed = false ∧
     (shred 0 1 senvDrainErr 2).randClosed = false) :=
  ⟨by decide, (C7_amended_release 0 1 senvDrainErr 2).2.1 5 (by decide)⟩

/-- C8: with target length zero the pipeline completes immediately and
successfully, with confirmed total 0, an empty event trace (no write ever
issued, nothing collected by the drain phase), returning 0 after the
flush. -/
theorem C8_len_zero (rfd wfd C N : Nat) (env : Env) (fuel : Nat)
    (hrw : rfd ≠ wfd) (hfs : env.fsyncRet = 0) :
    (shred_from rfd wfd (initPool rfd C N) 0 env fuel).result = Except.ok 0 ∧
    (shred_from rfd wfd (initPool rfd C N) 0 env fuel).events = [] ∧
    dispTrace (shred_from rfd wfd (initPool rfd C N) 0 env fuel).events = [] ∧
    sumCompBcnt (shred_from rfd wfd (initPool rfd C N) 0 env fuel).events = 0 := by
  obtain ⟨h1, h2⟩ := shred_from_len_zero rfd wfd C N env fuel hrw hfs
  exact ⟨h1, h2, by simp [h2], by simp [h2]⟩

theorem C8_len_zero_witness :
    (0 : Nat) ≠ 1 ∧ envBase.fsyncRet = 0 ∧
    ((shred_from 0 1 (initPool 0 4 2) 0 envBase 3).result = Except.ok 0 ∧
    (shred_from 0 1 (initPool 0 4 2) 0 envBase 3).events = [] ∧
    dispTrace (shred_from 0 1 (initPool 0 4 2) 0 envBase 3).events = [] ∧
    sumCompBcnt (shred_from 0 1 (initPool 0 4 2) 0 envBase 3).events = 0) :=
  ⟨by decide, rfl, C8_len_zero 0 1 4 2 envBase 3 (by decide) rfl⟩

/-- C9 (implicit): a random-source read is treated as failed only when it
returns a negative value.  If every refill read result is nonnegative the
pipeline never fails with the read-error exit; if every priming read
result is nonnegative `shred` never takes its priming-failure exit; and in
the scenario where every read returns zero bytes the run still dispatches
every slot with its full pending length and succeeds with total 10. -/
theorem C9_read_fails_only_negative (rfd wfd : Nat) (slots : List Slot) (len : Nat)
    (env : Env) (fuel : Nat) (senv : ShredEnv) (fuel2 : Nat) :
    ((∀ r' i', 0 ≤ env.readRes r' i') →
      (shred_from rfd wfd slots len env fuel).result ≠ Except.error RunErr.readErr) ∧
    ((∀ i, 0 ≤ senv.primeRes i) →
      ∀ e, (shred rfd wfd senv fuel2).res ≠ ShredRes.primeFail e) ∧
    ((shred_from 0 1 (initPool 0 4 2) 10 envShortReads 10).result = Except.ok 10 ∧
     dispTrace (shred_from 0 1 (initPool 0 4 2) 10 envShortReads 10).events =
       [(0, 4), (4, 4), (8, 2)]) := by
  refine ⟨fun hnn hres => ?_, fun hp e hres => ?_, by decide, by decide⟩
  · obtain ⟨r', i', hneg⟩ := shred_from_readErr rfd wfd slots len env fuel hres
    have := hnn r' i'
    omega
  · simp only [shred] at hres
    split_ifs at hres with h1 h2 h3
    all_goals first
      | (simp at hres; done)
      | (rw [List.any_eq_true] at h2
         obtain ⟨x, -, hx⟩ := h2
         simp only [decide_eq_true_eq] at hx
         have := hp x
         omega)
      | (revert hres
         rcases hor : (shred_from rfd wfd (initPool rfd buf_size blcnt)
            senv.totalSize senv.fenv fuel2).result with e' | n'
         <;> intro hres
         <;> simp at hres)

theorem C9_read_fails_only_negative_witness :
    ((shred_from 0 1 (initPool 0 4 2) 10 envShortReads 10).result ≠
      Except.error RunErr.readErr) ∧
    (∀ e, (shred 0 1 senvDrainErr 2).res ≠ ShredRes.primeFail e) :=
  ⟨(C9_read_fails_only_negative 0 1 (initPool 0 4 2) 10 envShortReads 10
      senvDrainErr 2).1 (fun _ _ => by simp [envShortReads, envScenario, envBase]),
   (C9_read_fails_only_negative 0 1 (initPool 0 4 2) 10 envShortReads 10
      senvDrainErr 2).2.1 (fun _ => by simp [senvDrainErr])⟩

/-- C10 (implicit): every slot's `aio_fildes` stays in the two-element set
`{rfd, wfd}`, encoding the slot's role, at the end of every run; and in a
run whose target (2 bytes) is smaller than one buffer, exactly one slot is
dispatched, the drain phase collects only that writing-role slot, the
seven still-primed reading-role slots contribute nothing, and the run
returns 2. -/
theorem C10_descriptor_roles (rfd wfd C N len : Nat) (env : Env) (fuel : Nat) :
    (∀ sl ∈ (shred_from rfd wfd (initPool rfd C N) len env fuel).slots,
      sl.aio_fildes = rfd ∨ sl.aio_fildes = wfd) ∧
    ((shred_from 0 1 (initPool 0 4 8) 2 envTiny 5).result = Except.ok 2 ∧
     (shred_from 0 1 (initPool 0 4 8) 2 envTiny 5).events =
       [Event.dispatch 0 0 2, Event.complete 0 2 2] ∧
     (shred_from 0 1 (initPool 0 4 8) 2 envTiny 5).slots =
       { aio_fildes := 1, aio_offset := 0, aio_nbytes := 2, pending := false } ::
         initPool 0 4 7) := by
  refine ⟨shred_from_fildes rfd wfd (initPool rfd C N) len env fuel
    (fun sl hsl => ?_), by decide, by decide, by decide⟩
  have := List.eq_of_mem_replicate hsl
  subst this
  exact Or.inl rfl

theorem C10_descriptor_roles_witness :
    ({ aio_fildes := 1, aio_offset := 0, aio_nbytes := 2, pending := false } : Slot).aio_fildes
        = 0 ∨
    ({ aio_fildes := 1, aio_offset := 0, aio_nbytes := 2, pending := false } : Slot).aio_fildes
        = 1 :=
  (C10_descriptor_roles 0 1 4 8 2 envTiny 5).1
    { aio_fildes := 1, aio_offset := 0, aio_nbytes := 2, pending := false } (by decide)

end Ashred

